import Mathlib

/-!
Shallow embedding of the ARAP surface-deformation engine
`Surface_modeling/include/CGAL/Deform_mesh.h` (class `Deform_mesh`).

Modelling conventions:
* Vertices and edges are identified with the dense ids `0, 1, 2, ...` that the
  constructor assigns through the external index maps (one id per vertex/edge,
  in enumeration order), so `vertex_descriptor` is `ℕ` and `edge_descriptor`
  is `ℕ`.
* 3-D points (`Point_3`) and vectors are triples of rationals (`V3`);
  `Eigen::Matrix3d` is `M3`.
* The external mesh's fixed topology (edge endpoints, opposite edges, border
  flags, facet circulation) lives in `Ctx`; its mutable per-vertex stored
  position is the `mesh` field of `EngineState`.
* The external sparse solver and Eigen's SVD are external collaborators; their
  numeric results are oracles in `Ctx` (`pre_factor`, `linear_solver`,
  `svd_uv`).  Everything the engine itself computes is modelled directly.
* `std::vector`-backed membership/id tables indexed by vertex id are total
  functions from `ℕ`; the `-1` "not assigned" mark of `ros_id_map` is `none`.
  `rot_mtr` keeps its `std::vector` nature (a `List M3`) because the code
  compares indices against its size.
* The iterator `Handle_group` is modelled as the index of the group in
  `handle_group_list`.
-/

namespace DeformMesh

/-- Pointwise update of a total map, modelling a write `a[k] = x`. -/
def upd {α : Type} (f : ℕ → α) (k : ℕ) (x : α) : ℕ → α :=
  fun i => if i = k then x else f i

/-- A 3-D point / vector with rational coordinates (models `Point_3`,
`Vector_3`, `Eigen::Vector3d`). -/
structure V3 where
  x : ℚ
  y : ℚ
  z : ℚ
deriving DecidableEq

def V3.zero : V3 := ⟨0, 0, 0⟩

def vadd (a b : V3) : V3 := ⟨a.x + b.x, a.y + b.y, a.z + b.z⟩

def vsub (a b : V3) : V3 := ⟨a.x - b.x, a.y - b.y, a.z - b.z⟩

def dot (a b : V3) : ℚ := a.x * b.x + a.y * b.y + a.z * b.z

/-- Squared euclidean norm (`squaredNorm`). -/
def sqnorm (a : V3) : ℚ := a.x * a.x + a.y * a.y + a.z * a.z

/-- A 3×3 rational matrix, stored by rows (models `Eigen::Matrix3d`). -/
structure M3 where
  r0 : V3
  r1 : V3
  r2 : V3
deriving DecidableEq

def M3.id : M3 := ⟨⟨1, 0, 0⟩, ⟨0, 1, 0⟩, ⟨0, 0, 1⟩⟩

def M3.zero : M3 := ⟨V3.zero, V3.zero, V3.zero⟩

def mulVec (m : M3) (v : V3) : V3 := ⟨dot m.r0 v, dot m.r1 v, dot m.r2 v⟩

def madd (a b : M3) : M3 := ⟨vadd a.r0 b.r0, vadd a.r1 b.r1, vadd a.r2 b.r2⟩

def msmul (c : ℚ) (m : M3) : M3 :=
  ⟨⟨c * m.r0.x, c * m.r0.y, c * m.r0.z⟩,
   ⟨c * m.r1.x, c * m.r1.y, c * m.r1.z⟩,
   ⟨c * m.r2.x, c * m.r2.y, c * m.r2.z⟩⟩

def mtrans (m : M3) : M3 :=
  ⟨⟨m.r0.x, m.r1.x, m.r2.x⟩, ⟨m.r0.y, m.r1.y, m.r2.y⟩, ⟨m.r0.z, m.r1.z, m.r2.z⟩⟩

def mmul (a b : M3) : M3 :=
  let bt := mtrans b
  ⟨⟨dot a.r0 bt.r0, dot a.r0 bt.r1, dot a.r0 bt.r2⟩,
   ⟨dot a.r1 bt.r0, dot a.r1 bt.r1, dot a.r1 bt.r2⟩,
   ⟨dot a.r2 bt.r0, dot a.r2 bt.r1, dot a.r2 bt.r2⟩⟩

/-- Outer product `p * qᵀ` of a column vector and a row vector
(the covariance contributions `pij * qij`). -/
def outer (p q : V3) : M3 :=
  ⟨⟨p.x * q.x, p.x * q.y, p.x * q.z⟩,
   ⟨p.y * q.x, p.y * q.y, p.y * q.z⟩,
   ⟨p.z * q.x, p.z * q.y, p.z * q.z⟩⟩

def det (m : M3) : ℚ :=
  m.r0.x * (m.r1.y * m.r2.z - m.r1.z * m.r2.y)
  - m.r0.y * (m.r1.x * m.r2.z - m.r1.z * m.r2.x)
  + m.r0.z * (m.r1.x * m.r2.y - m.r1.y * m.r2.x)

/-- Negate column 2 of a matrix (`u_m.col(2) *= -1`). -/
def neg_col2 (m : M3) : M3 :=
  ⟨⟨m.r0.x, m.r0.y, -m.r0.z⟩, ⟨m.r1.x, m.r1.y, -m.r1.z⟩, ⟨m.r2.x, m.r2.y, -m.r2.z⟩⟩

/-- The fixed context of one engine instance: the external mesh's topology,
the compile-time deformation variant, and the external numeric collaborators
(sparse solver with prefactorization, Eigen's SVD). -/
structure Ctx where
  numV : ℕ
  /-- Directed edges (halfedges) as (source, target), indexed by edge id. -/
  edges : List (ℕ × ℕ)
  /-- Opposite halfedge (`CGAL::opposite_edge`). -/
  opp : ℕ → ℕ
  /-- Border flag (`CGAL::edge_is_border`). -/
  is_border : ℕ → Bool
  /-- Next halfedge around the facet (`CGAL::next_edge`). -/
  nxt : ℕ → ℕ
  /-- The cycle of halfedges around the facet of a non-border halfedge,
  starting at it: the sequence visited by the do-while circulation
  `edge_around_facet = next_edge(edge_around_facet)` until back to start. -/
  facet_edges : ℕ → List ℕ
  /-- True selects `SPOKES_AND_RIMS`, false `ORIGINAL_ARAP`
  (template parameter `deformation_type`). -/
  variant : Bool
  /-- External solver `pre_factor` on the assembled coefficient list:
  returns factorization success. -/
  pre_factor : List (ℕ × ℕ × ℚ) → Bool
  /-- External solver `linear_solver`: solves one prefactored system. -/
  linear_solver : List ℚ → List ℚ
  /-- Eigen `JacobiSVD`: full `(U, V)` factors of a 3×3 matrix. -/
  svd_uv : M3 → M3 × M3

def edge_source (cfg : Ctx) (e : ℕ) : ℕ := (cfg.edges.getD e (0, 0)).1

def edge_target (cfg : Ctx) (e : ℕ) : ℕ := (cfg.edges.getD e (0, 0)).2

/-- Ids of the inbound halfedges of a vertex (`boost::in_edges`). -/
def in_edges (cfg : Ctx) (v : ℕ) : List ℕ :=
  (List.range cfg.edges.length).filter (fun e => edge_target cfg e = v)

/-- Ids of the outbound halfedges of a vertex (`boost::out_edges`). -/
def out_edges (cfg : Ctx) (v : ℕ) : List ℕ :=
  (List.range cfg.edges.length).filter (fun e => edge_source cfg e = v)

/-- The mutable state of a `Deform_mesh` object, plus the external mesh's
stored vertex positions (`mesh`), which the engine borrows and mutates. -/
structure EngineState where
  mesh : ℕ → V3
  original : ℕ → V3
  solution : ℕ → V3
  roi : List ℕ
  ros : List ℕ
  ros_id_map : ℕ → Option ℕ
  is_roi_map : ℕ → Bool
  is_hdl_map : ℕ → Bool
  edge_weight : List ℚ
  rot_mtr : List M3
  iterations : ℕ
  tolerance : ℚ
  need_preprocess : Bool
  handle_group_list : List (List ℕ)

/-- Shorthand `ros_id(vd)` read; `none` is the `-1` "not assigned" mark. -/
def ros_id (s : EngineState) (v : ℕ) : Option ℕ := s.ros_id_map v

/-- The numeric ros-id of a vertex known to have one. -/
def rid (s : EngineState) (v : ℕ) : ℕ := (s.ros_id_map v).getD 0

/-- Edge weight lookup `edge_weight[id(e)]`. -/
def wgt (s : EngineState) (e : ℕ) : ℚ := s.edge_weight.getD e 0

/-- Rotation matrix lookup `rot_mtr[i]`. -/
def rotD (s : EngineState) (i : ℕ) : M3 := s.rot_mtr.getD i M3.id

/-- The constructor: assigns vertex/edge ids in enumeration order (here the
identity) and computes all edge weights once from the weight calculator. -/
def construct (cfg : Ctx) (pos : ℕ → V3) (wc : ℕ → ℚ) (its : ℕ) (tol : ℚ) :
    EngineState :=
  { mesh := pos
    original := fun _ => V3.zero
    solution := fun _ => V3.zero
    roi := []
    ros := []
    ros_id_map := fun _ => none
    is_roi_map := fun _ => false
    is_hdl_map := fun _ => false
    edge_weight := (List.range cfg.edges.length).map wc
    rot_mtr := []
    iterations := its
    tolerance := tol
    need_preprocess := true
    handle_group_list := [] }

/-- Member function `reset()`. -/
def reset (s : EngineState) : EngineState :=
  { s with need_preprocess := true
           roi := []
           handle_group_list := []
           is_roi_map := fun _ => false
           is_hdl_map := fun _ => false }

/-- Member function `create_handle_group()`; returns the new group's index.
The code deliberately does not set `need_preprocess`. -/
def create_handle_group (s : EngineState) : ℕ × EngineState :=
  (s.handle_group_list.length,
   { s with handle_group_list := s.handle_group_list ++ [[]] })

/-- Member function `insert_roi(vertex_descriptor)`. -/
def insert_roi (v : ℕ) (s : EngineState) : Bool × EngineState :=
  if s.is_roi_map v then (false, s)
  else
    (true,
     { s with need_preprocess := true
              is_roi_map := upd s.is_roi_map v true
              roi := s.roi ++ [v] })

/-- Member function `insert_handle(Handle_group, vertex_descriptor)`. -/
def insert_handle (g : ℕ) (v : ℕ) (s : EngineState) : Bool × EngineState :=
  if s.is_hdl_map v then (false, s)
  else
    let s1 := { s with need_preprocess := true }
    let s2 := (insert_roi v s1).2
    (true,
     { s2 with is_hdl_map := upd s2.is_hdl_map v true
               handle_group_list :=
                 s2.handle_group_list.set g
                   ((s2.handle_group_list.getD g []) ++ [v]) })

/-- Member function `erase_handle(Handle_group, vertex_descriptor)`. -/
def erase_handle (g : ℕ) (v : ℕ) (s : EngineState) : Bool × EngineState :=
  if s.is_hdl_map v then
    if v ∈ s.handle_group_list.getD g [] then
      (true,
       { s with is_hdl_map := upd s.is_hdl_map v false
                handle_group_list :=
                  s.handle_group_list.set g ((s.handle_group_list.getD g []).erase v)
                need_preprocess := true })
    else (false, s)
  else (false, s)

/-- First group (by position) whose member list contains the vertex. -/
def find_group (v : ℕ) : List (List ℕ) → Option ℕ
  | [] => none
  | G :: rest => if v ∈ G then some 0 else (find_group v rest).map (· + 1)

/-- Member function `erase_handle(vertex_descriptor)`: searches all groups. -/
def erase_handle_any (v : ℕ) (s : EngineState) : Bool × EngineState :=
  if s.is_hdl_map v then
    match find_group v s.handle_group_list with
    | some g => erase_handle g v s
    | none => (false, s)
  else (false, s)

/-- Member function `erase_handle(Handle_group)`: erases a whole group. -/
def erase_handle_group (g : ℕ) (s : EngineState) : EngineState :=
  let members := s.handle_group_list.getD g []
  { s with need_preprocess := true
           is_hdl_map := members.foldl (fun m u => upd m u false) s.is_hdl_map
           handle_group_list := s.handle_group_list.eraseIdx g }

/-- Member function `erase_roi(vertex_descriptor)`. -/
def erase_roi (v : ℕ) (s : EngineState) : Bool × EngineState :=
  if s.is_roi_map v then
    let s1 := (erase_handle_any v s).2
    if v ∈ s1.roi then
      (true,
       { s1 with is_roi_map := upd s1.is_roi_map v false
                 roi := s1.roi.erase v
                 need_preprocess := true })
    else (false, s1)
  else (false, s)

/-- Member function `set_iterations`. -/
def set_iterations (its : ℕ) (s : EngineState) : EngineState :=
  { s with iterations := its }

/-- Member function `set_tolerance`. -/
def set_tolerance (tol : ℚ) (s : EngineState) : EngineState :=
  { s with tolerance := tol }

/-- State threaded through ros-id assignment: the id table, the next free id,
and the vector new vertices are pushed into. -/
structure RosAssign where
  idmap : ℕ → Option ℕ
  next : ℕ
  pushed : List ℕ

/-- One candidate vertex inside `assign_ros_id_to_one_ring`: if it has no
ros-id yet, give it the next sequential id and push it. -/
def assign_one (st : RosAssign) (vt : ℕ) : RosAssign :=
  match st.idmap vt with
  | some _ => st
  | none =>
      { idmap := upd st.idmap vt (some st.next)
        next := st.next + 1
        pushed := st.pushed ++ [vt] }

/-- Private member `assign_ros_id_to_one_ring`: walks the inbound edges of a
vertex and assigns fresh ids to unassigned sources. -/
def assign_ros_id_to_one_ring (cfg : Ctx) (v : ℕ) (st : RosAssign) : RosAssign :=
  (in_edges cfg v).foldl (fun st e => assign_one st (edge_source cfg e)) st

/-- The loop `for i: ros_id(roi[i]) = i` writing ids `i, i+1, ...` to a list
of vertices in order. -/
def assign_roi_ids : (ℕ → Option ℕ) → ℕ → List ℕ → (ℕ → Option ℕ)
  | m, _, [] => m
  | m, i, v :: rest => assign_roi_ids (upd m v (some i)) (i + 1) rest

/-- The id-assignment phase of `region_of_solution` (steps 2-4): rebuild
`ros` from `roi`, give ros-ids `0..|roi|-1` to the roi, then one ring
(boundary of roi, pushed into `ros`), then one further ring (pushed into
`outside_ros`).  Returns the final assignment state, `ros` and `outside_ros`. -/
def build_ros (cfg : Ctx) (roi : List ℕ) : RosAssign × List ℕ × List ℕ :=
  let st0 : RosAssign :=
    { idmap := assign_roi_ids (fun _ => none) 0 roi
      next := roi.length
      pushed := roi }
  let st1 := roi.foldl (fun st v => assign_ros_id_to_one_ring cfg v st) st0
  let ros := st1.pushed
  let st2 := (ros.drop roi.length).foldl
    (fun st v => assign_ros_id_to_one_ring cfg v st) { st1 with pushed := [] }
  (st2, ros, st2.pushed)

/-- Private member `region_of_solution()`: write evicted ex-ROI vertices back
to the mesh, rebuild `ros` and the ros-id table, and carry
rotation/solution/original data over for persisting vertices. -/
def region_of_solution (cfg : Ctx) (s : EngineState) : EngineState :=
  let old_ros_id := s.ros_id_map
  let old_rot := s.rot_mtr
  let old_solution := s.solution
  let old_original := s.original
  let mesh1 := s.ros.foldl
    (fun m v =>
      if s.is_roi_map v then m else upd m v (old_original ((old_ros_id v).getD 0)))
    s.mesh
  let b := build_ros cfg s.roi
  let idmap := b.1.idmap
  let ros := b.2.1
  let outside := b.2.2
  let ridx := fun v => (idmap v).getD 0
  let rot0 := old_rot.take ros.length
      ++ List.replicate (ros.length - old_rot.length) M3.id
  let rot1 := ros.foldl
    (fun r v =>
      match old_ros_id v with
      | some oid =>
          if oid < old_rot.length then r.set (ridx v) (old_rot.getD oid M3.id)
          else r.set (ridx v) M3.id
      | none => r.set (ridx v) M3.id)
    rot0
  let sol1 := ros.foldl
    (fun f v =>
      if s.is_roi_map v ∧ (old_ros_id v).isSome then
        upd f (ridx v) (old_solution ((old_ros_id v).getD 0))
      else upd f (ridx v) (mesh1 v))
    s.solution
  let orig1 := ros.foldl
    (fun f v =>
      if s.is_roi_map v ∧ (old_ros_id v).isSome then
        upd f (ridx v) (old_original ((old_ros_id v).getD 0))
      else upd f (ridx v) (mesh1 v))
    s.original
  let sol2 := outside.foldl (fun f v => upd f (ridx v) (mesh1 v)) sol1
  let orig2 := outside.foldl (fun f v => upd f (ridx v) (mesh1 v)) orig1
  { s with mesh := mesh1
           ros := ros
           ros_id_map := idmap
           rot_mtr := rot1
           solution := sol2
           original := orig2 }

/-- Private member `assemble_laplacian_arap`: the emitted `set_coef`
coefficient stream (row, column, value), in emission order. -/
def assemble_laplacian_arap (cfg : Ctx) (s : EngineState) : List (ℕ × ℕ × ℚ) :=
  s.ros.foldl
    (fun acc vi =>
      let vi_id := rid s vi
      if s.is_roi_map vi ∧ ¬ s.is_hdl_map vi then
        let p := (in_edges cfg vi).foldl
          (fun (p : List (ℕ × ℕ × ℚ) × ℚ) e =>
            let vj := edge_source cfg e
            let total_weight := wgt s e + wgt s (cfg.opp e)
            (p.1 ++ [(vi_id, rid s vj, -total_weight)], p.2 + total_weight))
          ([], 0)
        acc ++ p.1 ++ [(vi_id, vi_id, p.2)]
      else acc ++ [(vi_id, vi_id, 1)])
    []

/-- Private member `assemble_laplacian_spokes_and_rims`. -/
def assemble_laplacian_spokes_and_rims (cfg : Ctx) (s : EngineState) :
    List (ℕ × ℕ × ℚ) :=
  s.ros.foldl
    (fun acc vi =>
      let vi_id := rid s vi
      if s.is_roi_map vi ∧ ¬ s.is_hdl_map vi then
        let p := (out_edges cfg vi).foldl
          (fun (p : List (ℕ × ℕ × ℚ) × ℚ) e =>
            let total_weight :=
              (if cfg.is_border e then 0 else wgt s e)
              + (if cfg.is_border (cfg.opp e) then 0 else wgt s (cfg.opp e))
            let vj := edge_target cfg e
            (p.1 ++ [(vi_id, rid s vj, -total_weight)], p.2 + total_weight))
          ([], 0)
        acc ++ p.1 ++ [(vi_id, vi_id, p.2)]
      else acc ++ [(vi_id, vi_id, 1)])
    []

/-- Private member `assemble_laplacian`: variant dispatch. -/
def assemble_laplacian (cfg : Ctx) (s : EngineState) : List (ℕ × ℕ × ℚ) :=
  if cfg.variant then assemble_laplacian_spokes_and_rims cfg s
  else assemble_laplacian_arap cfg s

/-- Member function `preprocess()`.  Note the code clears `need_preprocess`
before attempting the factorization. -/
def preprocess (cfg : Ctx) (s : EngineState) : Bool × EngineState :=
  if s.need_preprocess then
    let s1 := { s with need_preprocess := false }
    let s2 := region_of_solution cfg s1
    (cfg.pre_factor (assemble_laplacian cfg s2), s2)
  else (true, s)

/-- The implicit `if(need_preprocess) { preprocess(); }` prologue shared by
`translate`, `rotate`, `assign` and `deform`. -/
def maybe_preprocess (cfg : Ctx) (s : EngineState) : EngineState :=
  if s.need_preprocess then (preprocess cfg s).2 else s

/-- Member function `translate(Const_handle_group, Vector)`. -/
def translate (cfg : Ctx) (g : ℕ) (t : V3) (s : EngineState) : EngineState :=
  let s1 := maybe_preprocess cfg s
  let sol := (s1.handle_group_list.getD g []).foldl
    (fun f v =>
      let v_id := rid s1 v
      upd f v_id (vadd (s1.original v_id) t))
    s1.solution
  { s1 with solution := sol }

/-- Member function `rotate(Const_handle_group, Point, Quaternion, Vect)`:
the external quaternion action is the function `qact`. -/
def rotate (cfg : Ctx) (g : ℕ) (center : V3) (qact : V3 → V3) (t : V3)
    (s : EngineState) : EngineState :=
  let s1 := maybe_preprocess cfg s
  let sol := (s1.handle_group_list.getD g []).foldl
    (fun f v =>
      let v_id := rid s1 v
      let p := vsub (s1.original v_id) center
      upd f v_id (vadd (vadd (qact p) center) t))
    s1.solution
  { s1 with solution := sol }

/-- Member function `assign(vertex_descriptor, Point)`. -/
def assign (cfg : Ctx) (v : ℕ) (p : V3) (s : EngineState) : EngineState :=
  let s1 := maybe_preprocess cfg s
  if s1.is_hdl_map v then { s1 with solution := upd s1.solution (rid s1 v) p }
  else s1

/-- Private member `update_solution_arap` (global step, one-ring variant):
assemble the three right-hand sides, solve with the prefactored system, copy
the solved coordinates into `solution`. -/
def update_solution_arap (cfg : Ctx) (s : EngineState) : EngineState :=
  let B := s.ros.foldl
    (fun (b : ℕ → V3) vi =>
      let vi_id := rid s vi
      if s.is_roi_map vi ∧ ¬ s.is_hdl_map vi then
        let xyz := (in_edges cfg vi).foldl
          (fun acc e =>
            let vj := edge_source cfg e
            let vj_id := rid s vj
            let pij := vsub (s.original vi_id) (s.original vj_id)
            let wij := wgt s e
            let wji := wgt s (cfg.opp e)
            vadd acc
              (mulVec (madd (msmul wij (rotD s vi_id)) (msmul wji (rotD s vj_id)))
                pij))
          V3.zero
        upd b vi_id xyz
      else upd b vi_id (s.solution vi_id))
    (fun _ => V3.zero)
  let n := s.ros.length
  let X := cfg.linear_solver ((List.range n).map (fun i => (B i).x))
  let Y := cfg.linear_solver ((List.range n).map (fun i => (B i).y))
  let Z := cfg.linear_solver ((List.range n).map (fun i => (B i).z))
  let sol := s.ros.foldl
    (fun f v =>
      let v_id := rid s v
      upd f v_id ⟨X.getD v_id 0, Y.getD v_id 0, Z.getD v_id 0⟩)
    s.solution
  { s with solution := sol }

/-- Private member `update_solution_spokes_and_rims` (global step, spokes and
rims variant). -/
def update_solution_spokes_and_rims (cfg : Ctx) (s : EngineState) : EngineState :=
  let B := s.ros.foldl
    (fun (b : ℕ → V3) vi =>
      let vi_id := rid s vi
      if s.is_roi_map vi ∧ ¬ s.is_hdl_map vi then
        let xyz := (out_edges cfg vi).foldl
          (fun acc e =>
            let vj := edge_target cfg e
            let vj_id := rid s vj
            let pij := vsub (s.original vi_id) (s.original vj_id)
            let acc1 :=
              if cfg.is_border e then acc
              else
                let vn := edge_target cfg (cfg.nxt e)
                let wji := wgt s e / 3
                vadd acc
                  (mulVec
                    (msmul wji
                      (madd (madd (rotD s vi_id) (rotD s vj_id)) (rotD s (rid s vn))))
                    pij)
            if cfg.is_border (cfg.opp e) then acc1
            else
              let vm := edge_target cfg (cfg.nxt (cfg.opp e))
              let wij := wgt s (cfg.opp e) / 3
              vadd acc1
                (mulVec
                  (msmul wij
                    (madd (madd (rotD s vi_id) (rotD s vj_id)) (rotD s (rid s vm))))
                  pij))
          V3.zero
        upd b vi_id xyz
      else upd b vi_id (s.solution vi_id))
    (fun _ => V3.zero)
  let n := s.ros.length
  let X := cfg.linear_solver ((List.range n).map (fun i => (B i).x))
  let Y := cfg.linear_solver ((List.range n).map (fun i => (B i).y))
  let Z := cfg.linear_solver ((List.range n).map (fun i => (B i).z))
  let sol := s.ros.foldl
    (fun f v =>
      let v_id := rid s v
      upd f v_id ⟨X.getD v_id 0, Y.getD v_id 0, Z.getD v_id 0⟩)
    s.solution
  { s with solution := sol }

/-- Private member `update_solution`: variant dispatch. -/
def update_solution (cfg : Ctx) (s : EngineState) : EngineState :=
  if cfg.variant then update_solution_spokes_and_rims cfg s
  else update_solution_arap cfg s

/-- The shared SVD tail of the local step: extract `v * uᵀ` and repair a
reflection by flipping the column of the smallest singular value. -/
def svd_rotation (cfg : Ctx) (cov : M3) : M3 :=
  let uv := cfg.svd_uv cov
  let r := mmul uv.2 (mtrans uv.1)
  if det r < 0 then mmul uv.2 (mtrans (neg_col2 uv.1)) else r

/-- Private member `optimal_rotations_svd_arap` (local step, one-ring). -/
def optimal_rotations_svd_arap (cfg : Ctx) (s : EngineState) : EngineState :=
  let rots1 := s.ros.foldl
    (fun rots vi =>
      let vi_id := rid s vi
      let cov := (in_edges cfg vi).foldl
        (fun c e =>
          let vj := edge_source cfg e
          let vj_id := rid s vj
          let pij := vsub (s.original vi_id) (s.original vj_id)
          let qij := vsub (s.solution vi_id) (s.solution vj_id)
          madd c (msmul (wgt s e) (outer pij qij)))
        M3.zero
      rots.set vi_id (svd_rotation cfg cov))
    s.rot_mtr
  { s with rot_mtr := rots1 }

/-- Private member `optimal_rotations_svd_spokes_and_rims` (local step,
spokes and rims: covariance over all edges of incident facets). -/
def optimal_rotations_svd_spokes_and_rims (cfg : Ctx) (s : EngineState) :
    EngineState :=
  let rots1 := s.ros.foldl
    (fun rots vi =>
      let vi_id := rid s vi
      let cov := (out_edges cfg vi).foldl
        (fun c e =>
          if cfg.is_border e then c
          else
            (cfg.facet_edges e).foldl
              (fun c e2 =>
                let v1 := edge_target cfg e2
                let v2 := edge_source cfg e2
                let p12 := vsub (s.original (rid s v1)) (s.original (rid s v2))
                let q12 := vsub (s.solution (rid s v1)) (s.solution (rid s v2))
                madd c (msmul (wgt s e2) (outer p12 q12)))
              c)
        M3.zero
      rots.set vi_id (svd_rotation cfg cov))
    s.rot_mtr
  { s with rot_mtr := rots1 }

/-- Private member `optimal_rotations_svd`: variant dispatch. -/
def optimal_rotations_svd (cfg : Ctx) (s : EngineState) : EngineState :=
  if cfg.variant then optimal_rotations_svd_spokes_and_rims cfg s
  else optimal_rotations_svd_arap cfg s

/-- Private member `energy_arap`. -/
def energy_arap (cfg : Ctx) (s : EngineState) : ℚ :=
  s.ros.foldl
    (fun acc vi =>
      let vi_id := rid s vi
      (in_edges cfg vi).foldl
        (fun acc e =>
          let vj := edge_source cfg e
          let vj_id := rid s vj
          let pij := vsub (s.original vi_id) (s.original vj_id)
          let qij := vsub (s.solution vi_id) (s.solution vj_id)
          acc + wgt s e * sqnorm (vsub qij (mulVec (rotD s vi_id) pij)))
        acc)
    0

/-- Private member `energy_spokes_and_rims`. -/
def energy_spokes_and_rims (cfg : Ctx) (s : EngineState) : ℚ :=
  s.ros.foldl
    (fun acc vi =>
      let vi_id := rid s vi
      (out_edges cfg vi).foldl
        (fun acc e =>
          if cfg.is_border e then acc
          else
            (cfg.facet_edges e).foldl
              (fun acc e2 =>
                let v1 := edge_target cfg e2
                let v2 := edge_source cfg e2
                let p12 := vsub (s.original (rid s v1)) (s.original (rid s v2))
                let q12 := vsub (s.solution (rid s v1)) (s.solution (rid s v2))
                acc + wgt s e2 * sqnorm (vsub q12 (mulVec (rotD s vi_id) p12)))
              acc)
        acc)
    0

/-- Private member `energy()`: variant dispatch. -/
def energy (cfg : Ctx) (s : EngineState) : ℚ :=
  if cfg.variant then energy_spokes_and_rims cfg s else energy_arap cfg s

/-- Private member `assign_solution()`: copy ROI rows of `solution` back into
the external mesh's stored positions. -/
def assign_solution (s : EngineState) : EngineState :=
  let mesh1 := s.ros.foldl
    (fun m v => if s.is_roi_map v then upd m v (s.solution (rid s v)) else m)
    s.mesh
  { s with mesh := mesh1 }

/-- Instrumented result of the `deform` iteration loop: the final state, how
many times the loop body (global step + local step) ran, how many times
`energy()` was evaluated, and the iteration indices at which the
energy-difference comparison was performed. -/
structure DeformTrace where
  state : EngineState
  body_runs : ℕ
  energy_evals : ℕ
  comps : List ℕ

/-- The `for (ite = 0; ite < iterations; ++ite)` loop of `deform`, with
`fuel = iterations - ite` making the recursion structural.  `e_this` carries
the C++ variable `energy_this` (initially 0, "value not important"). -/
def deform_loop (cfg : Ctx) (its : ℕ) (tol : ℚ) :
    ℕ → ℕ → ℚ → EngineState → DeformTrace
  | 0, _, _, s => ⟨s, 0, 0, []⟩
  | fuel + 1, ite, e_this, s =>
    let s1 := optimal_rotations_svd cfg (update_solution cfg s)
    if 0 < tol ∧ ite + 1 < its then
      let e_new := energy cfg s1
      if ite ≠ 0 then
        if |(e_this - e_new) / e_new| < tol then ⟨s1, 1, 1, [ite]⟩
        else
          let t := deform_loop cfg its tol fuel (ite + 1) e_new s1
          ⟨t.state, t.body_runs + 1, t.energy_evals + 1, ite :: t.comps⟩
      else
        let t := deform_loop cfg its tol fuel (ite + 1) e_new s1
        ⟨t.state, t.body_runs + 1, t.energy_evals + 1, t.comps⟩
    else
      let t := deform_loop cfg its tol fuel (ite + 1) e_this s1
      ⟨t.state, t.body_runs + 1, t.energy_evals, t.comps⟩

/-- Member function `deform(unsigned int, double)`. -/
def deform (cfg : Ctx) (its : ℕ) (tol : ℚ) (s : EngineState) : EngineState :=
  let s0 := maybe_preprocess cfg s
  assign_solution (deform_loop cfg its tol its 0 0 s0).state

/-- Member function `deform()`: uses the stored iteration count/tolerance. -/
def deform_default (cfg : Ctx) (s : EngineState) : EngineState :=
  deform cfg s.iterations s.tolerance s

/-- States reachable through the public interface.  The range forms of
`insert_handle`/`insert_roi` are loops of the unary forms and therefore add
no further states.  The `insert_handle` guard reflects its precondition that
the group representative is valid. -/
inductive Reachable (cfg : Ctx) : EngineState → Prop
  | construct : ∀ pos wc its tol, Reachable cfg (construct cfg pos wc its tol)
  | create_handle_group : ∀ s, Reachable cfg s →
      Reachable cfg (create_handle_group s).2
  | insert_handle : ∀ s g v, g < s.handle_group_list.length → Reachable cfg s →
      Reachable cfg (insert_handle g v s).2
  | erase_handle : ∀ s g v, Reachable cfg s → Reachable cfg (erase_handle g v s).2
  | erase_handle_any : ∀ s v, Reachable cfg s →
      Reachable cfg (erase_handle_any v s).2
  | erase_handle_group : ∀ s g, Reachable cfg s →
      Reachable cfg (erase_handle_group g s)
  | insert_roi : ∀ s v, Reachable cfg s → Reachable cfg (insert_roi v s).2
  | erase_roi : ∀ s v, Reachable cfg s → Reachable cfg (erase_roi v s).2
  | preprocess : ∀ s, Reachable cfg s → Reachable cfg (preprocess cfg s).2
  | translate : ∀ s g t, Reachable cfg s → Reachable cfg (translate cfg g t s)
  | rotate : ∀ s g c qact t, Reachable cfg s →
      Reachable cfg (rotate cfg g c qact t s)
  | assign : ∀ s v p, Reachable cfg s → Reachable cfg (assign cfg v p s)
  | deform : ∀ s its tol, Reachable cfg s → Reachable cfg (deform cfg its tol s)
  | set_iterations : ∀ s its, Reachable cfg s → Reachable cfg (set_iterations its s)
  | set_tolerance : ∀ s tol, Reachable cfg s → Reachable cfg (set_tolerance tol s)
  | reset : ∀ s, Reachable cfg s → Reachable cfg (reset s)


/-! Basic helper lemmas about map updates and list accesses. -/

theorem upd_self {α : Type} (f : ℕ → α) (k : ℕ) (x : α) : upd f k x k = x := by
  simp [upd]

theorem upd_other {α : Type} (f : ℕ → α) (k : ℕ) (x : α) (i : ℕ) (h : i ≠ k) :
    upd f k x i = f i := by
  simp [upd, h]

theorem getD_set_self {α : Type} (l : List α) (g : ℕ) (x d : α) (h : g < l.length) :
    (l.set g x).getD g d = x := by
  simp [List.getD_eq_getElem?_getD, List.getElem?_set_self, h]

theorem getD_set_other {α : Type} (l : List α) (g i : ℕ) (x d : α) (h : i ≠ g) :
    (l.set g x).getD i d = l.getD i d := by
  simp [List.getD_eq_getElem?_getD, List.getElem?_set_ne (Ne.symm h)]

/-! Field-preservation facts for the preprocessing pipeline: the ROS rebuild
touches neither the registry (roi, membership flags, groups) nor the solver
tuning parameters, and `preprocess` only additionally clears the validity
flag. -/

theorem region_of_solution_registry (cfg : Ctx) (s : EngineState) :
    (region_of_solution cfg s).roi = s.roi ∧
    (region_of_solution cfg s).is_roi_map = s.is_roi_map ∧
    (region_of_solution cfg s).is_hdl_map = s.is_hdl_map ∧
    (region_of_solution cfg s).handle_group_list = s.handle_group_list ∧
    (region_of_solution cfg s).need_preprocess = s.need_preprocess ∧
    (region_of_solution cfg s).edge_weight = s.edge_weight ∧
    (region_of_solution cfg s).iterations = s.iterations ∧
    (region_of_solution cfg s).tolerance = s.tolerance := by
  exact ⟨rfl, rfl, rfl, rfl, rfl, rfl, rfl, rfl⟩

theorem preprocess_registry (cfg : Ctx) (s : EngineState) :
    (preprocess cfg s).2.roi = s.roi ∧
    (preprocess cfg s).2.is_roi_map = s.is_roi_map ∧
    (preprocess cfg s).2.is_hdl_map = s.is_hdl_map ∧
    (preprocess cfg s).2.handle_group_list = s.handle_group_list := by
  by_cases h : s.need_preprocess <;>
    simp [preprocess, h] <;>
    exact ⟨rfl, rfl, rfl, rfl⟩

theorem preprocess_flag (cfg : Ctx) (s : EngineState) :
    (preprocess cfg s).2.need_preprocess = false ∨ (preprocess cfg s).2 = s := by
  by_cases h : s.need_preprocess
  · left
    simp [preprocess, h]
    rfl
  · right
    simp [preprocess, h]

/-! Concrete instances used as evaluation inputs below: a two-vertex mesh
with one halfedge pair, under various external collaborators. -/

def cfgA : Ctx :=
  { numV := 2
    edges := [(0, 1), (1, 0)]
    opp := fun e => 1 - e
    is_border := fun _ => true
    nxt := fun e => e
    facet_edges := fun _ => []
    variant := false
    pre_factor := fun _ => true
    linear_solver := fun b => b
    svd_uv := fun _ => (M3.id, M3.id) }

def posA : ℕ → V3 := fun v => ⟨(v : ℚ), 0, 0⟩

/-- The same tiny mesh with an external solver whose factorization fails. -/
def cfgB : Ctx := { cfgA with pre_factor := fun _ => false }

/-- Engine on `cfgB` with one ROI vertex, ready for a failing preprocess. -/
def stateB : EngineState := (insert_roi 0 (construct cfgB posA (fun _ => 1) 5 0)).2

/-- C1: on factorization failure (`pre_factor` reports false), `preprocess()`
returns false but the code has already cleared `need_preprocess`
(line 456 runs before `pre_factor`), so — contrary to the claim and to the
function's own documented return contract — the engine does not stay Dirty
and an immediate second call with no intervening mutation returns true (not
the first call's value) while performing no rebuild. -/
theorem preprocess_failure_clears_flag :
    (preprocess cfgB stateB).1 = false ∧
    (preprocess cfgB stateB).2.need_preprocess = false ∧
    (preprocess cfgB (preprocess cfgB stateB).2).1 = true ∧
    (preprocess cfgB (preprocess cfgB stateB).2).2 = (preprocess cfgB stateB).2 := by
  have hflag : (preprocess cfgB stateB).2.need_preprocess = false := by decide
  have hclean : ∀ X : EngineState, X.need_preprocess = false →
      (preprocess cfgB X).1 = true ∧ (preprocess cfgB X).2 = X := by
    intro X hX
    simp [preprocess, hX]
  exact ⟨by decide, hflag, (hclean _ hflag).1, (hclean _ hflag).2⟩

/-- C5 counterexample: after an `insert_roi` and a `preprocess`, `reset()`
leaves the stale `ros` sequence (and the other per-ROS arrays) in place, so
the engine is not in its post-construction state, where `ros` is empty. -/
theorem reset_keeps_stale_ros :
    (reset (preprocess cfgA (insert_roi 0 (construct cfgA posA (fun _ => 1) 5 0)).2).2).ros
      ≠ (construct cfgA posA (fun _ => 1) 5 0).ros := by
  decide

/-- C5 amended: `reset()` sets the validity flag and restores the registry
state (ROI sequence, handle groups, membership flags) to post-construction
contents, but leaves the per-ROS data (`ros`, `ros_id_map`, `rot_mtr`,
`solution`, `original`), the mesh positions, the edge weights and the solver
tuning parameters (`iterations`, `tolerance`) exactly as they were before
the call. -/
theorem reset_spec (s : EngineState) :
    (reset s).need_preprocess = true ∧
    (reset s).roi = [] ∧
    (reset s).handle_group_list = [] ∧
    (∀ v, (reset s).is_roi_map v = false ∧ (reset s).is_hdl_map v = false) ∧
    (reset s).ros = s.ros ∧
    (reset s).ros_id_map = s.ros_id_map ∧
    (reset s).rot_mtr = s.rot_mtr ∧
    (reset s).solution = s.solution ∧
    (reset s).original = s.original ∧
    (reset s).mesh = s.mesh ∧
    (reset s).edge_weight = s.edge_weight ∧
    (reset s).iterations = s.iterations ∧
    (reset s).tolerance = s.tolerance := by
  exact ⟨rfl, rfl, rfl, fun v => ⟨rfl, rfl⟩, rfl, rfl, rfl, rfl, rfl, rfl, rfl, rfl, rfl⟩


/-! Case-analysis equations for the registry operations, used repeatedly. -/

theorem insert_roi_pos (v : ℕ) (s : EngineState) (h : s.is_roi_map v = false) :
    insert_roi v s =
      (true,
       { s with need_preprocess := true
                is_roi_map := upd s.is_roi_map v true
                roi := s.roi ++ [v] }) := by
  simp only [insert_roi]
  rw [if_neg (by simp [h])]

theorem insert_roi_neg (v : ℕ) (s : EngineState) (h : s.is_roi_map v = true) :
    insert_roi v s = (false, s) := by
  simp only [insert_roi]
  rw [if_pos h]

theorem insert_handle_neg (g v : ℕ) (s : EngineState) (h : s.is_hdl_map v = true) :
    insert_handle g v s = (false, s) := by
  simp only [insert_handle]
  rw [if_pos h]

theorem insert_handle_pos (g v : ℕ) (s : EngineState) (h : s.is_hdl_map v = false) :
    insert_handle g v s =
      (true,
       let s2 := (insert_roi v { s with need_preprocess := true }).2
       { s2 with is_hdl_map := upd s2.is_hdl_map v true
                 handle_group_list :=
                   s2.handle_group_list.set g
                     ((s2.handle_group_list.getD g []) ++ [v]) }) := by
  simp only [insert_handle]
  rw [if_neg (by simp [h])]

theorem erase_handle_pos (g v : ℕ) (s : EngineState) (h1 : s.is_hdl_map v = true)
    (h2 : v ∈ s.handle_group_list.getD g []) :
    erase_handle g v s =
      (true,
       { s with is_hdl_map := upd s.is_hdl_map v false
                handle_group_list :=
                  s.handle_group_list.set g ((s.handle_group_list.getD g []).erase v)
                need_preprocess := true }) := by
  simp only [erase_handle]
  rw [if_pos h1, if_pos h2]

theorem erase_handle_neg1 (g v : ℕ) (s : EngineState) (h1 : s.is_hdl_map v = false) :
    erase_handle g v s = (false, s) := by
  simp only [erase_handle]
  rw [if_neg (by simp [h1])]

theorem erase_handle_neg2 (g v : ℕ) (s : EngineState)
    (h2 : v ∉ s.handle_group_list.getD g []) :
    erase_handle g v s = (false, s) := by
  simp only [erase_handle]
  by_cases h1 : s.is_hdl_map v
  · rw [if_pos h1, if_neg h2]
  · rw [if_neg h1]

theorem erase_handle_any_neg1 (v : ℕ) (s : EngineState) (h1 : s.is_hdl_map v = false) :
    erase_handle_any v s = (false, s) := by
  simp only [erase_handle_any]
  rw [if_neg (by simp [h1])]

theorem erase_handle_any_pos (v : ℕ) (s : EngineState) (h1 : s.is_hdl_map v = true)
    (g : ℕ) (hf : find_group v s.handle_group_list = some g) :
    erase_handle_any v s = erase_handle g v s := by
  simp only [erase_handle_any]
  rw [if_pos h1, hf]

theorem erase_handle_any_neg2 (v : ℕ) (s : EngineState)
    (hf : find_group v s.handle_group_list = none) :
    erase_handle_any v s = (false, s) := by
  simp only [erase_handle_any]
  by_cases h1 : s.is_hdl_map v
  · rw [if_pos h1, hf]
  · rw [if_neg h1]

theorem erase_roi_neg (v : ℕ) (s : EngineState) (h : s.is_roi_map v = false) :
    erase_roi v s = (false, s) := by
  simp only [erase_roi]
  rw [if_neg (by simp [h])]

theorem erase_roi_pos (v : ℕ) (s : EngineState) (h : s.is_roi_map v = true)
    (h2 : v ∈ (erase_handle_any v s).2.roi) :
    erase_roi v s =
      (true,
       let s1 := (erase_handle_any v s).2
       { s1 with is_roi_map := upd s1.is_roi_map v false
                 roi := s1.roi.erase v
                 need_preprocess := true }) := by
  simp only [erase_roi]
  rw [if_pos h, if_pos h2]

theorem erase_roi_mid (v : ℕ) (s : EngineState) (h : s.is_roi_map v = true)
    (h2 : v ∉ (erase_handle_any v s).2.roi) :
    erase_roi v s = (false, (erase_handle_any v s).2) := by
  simp only [erase_roi]
  rw [if_pos h, if_neg h2]

/-- Engine on `cfgA` after one ROI insertion and a successful preprocess:
its validity flag is clear. -/
def stateClean : EngineState :=
  (preprocess cfgA (insert_roi 0 (construct cfgA posA (fun _ => 1) 5 0)).2).2

/-- C8 counterexample: `create_handle_group` is a registry mutation, yet it
leaves the needs-preprocessing flag untouched (the code comments
"no need to need_preprocess = true"), so on a clean engine the flag
stays false. -/
theorem create_handle_group_leaves_flag :
    stateClean.need_preprocess = false ∧
    (create_handle_group stateClean).2.need_preprocess = false := by
  decide

/-- C8 amended: `erase_handle(Handle_group)` sets the validity flag
unconditionally; `insert_handle`, `erase_handle` (both forms), `insert_roi`
and `erase_roi` set it whenever they report success, and their failing calls
leave the engine unchanged (for `erase_roi`, on its ordinary failure path
where the vertex is not in the ROI); `create_handle_group` never touches the
flag. -/
theorem mutations_set_validity_flag :
    (∀ s : EngineState, (create_handle_group s).2.need_preprocess = s.need_preprocess) ∧
    (∀ (s : EngineState) (g v : ℕ), (insert_handle g v s).1 = true →
      (insert_handle g v s).2.need_preprocess = true) ∧
    (∀ (s : EngineState) (g v : ℕ), (insert_handle g v s).1 = false →
      (insert_handle g v s).2 = s) ∧
    (∀ (s : EngineState) (v : ℕ), (insert_roi v s).1 = true →
      (insert_roi v s).2.need_preprocess = true) ∧
    (∀ (s : EngineState) (v : ℕ), (insert_roi v s).1 = false →
      (insert_roi v s).2 = s) ∧
    (∀ (s : EngineState) (g v : ℕ), (erase_handle g v s).1 = true →
      (erase_handle g v s).2.need_preprocess = true) ∧
    (∀ (s : EngineState) (g v : ℕ), (erase_handle g v s).1 = false →
      (erase_handle g v s).2 = s) ∧
    (∀ (s : EngineState) (v : ℕ), (erase_handle_any v s).1 = true →
      (erase_handle_any v s).2.need_preprocess = true) ∧
    (∀ (s : EngineState) (v : ℕ), (erase_handle_any v s).1 = false →
      (erase_handle_any v s).2 = s) ∧
    (∀ (s : EngineState) (v : ℕ), (erase_roi v s).1 = true →
      (erase_roi v s).2.need_preprocess = true) ∧
    (∀ (s : EngineState) (v : ℕ), s.is_roi_map v = false →
      (erase_roi v s).2 = s) ∧
    (∀ (s : EngineState) (g : ℕ), (erase_handle_group g s).need_preprocess = true) := by
  have hins : ∀ (s : EngineState) (g v : ℕ), s.is_hdl_map v = false →
      (insert_handle g v s).2.need_preprocess = true := by
    intro s g v h
    rw [insert_handle_pos g v s h]
    by_cases h2 : s.is_roi_map v
    · rw [insert_roi_neg v _ (by simpa using h2)]
    · rw [insert_roi_pos v _ (by simpa using h2)]
  have heany : ∀ (s : EngineState) (v : ℕ), (erase_handle_any v s).1 = true →
      (erase_handle_any v s).2.need_preprocess = true := by
    intro s v h
    by_cases h1 : s.is_hdl_map v
    · cases hf : find_group v s.handle_group_list with
      | none => rw [erase_handle_any_neg2 v s hf] at h; exact absurd h (by simp)
      | some g =>
          rw [erase_handle_any_pos v s h1 g hf] at h ⊢
          by_cases h2 : v ∈ s.handle_group_list.getD g []
          · rw [erase_handle_pos g v s h1 h2]
          · rw [erase_handle_neg2 g v s h2] at h; exact absurd h (by simp)
    · rw [erase_handle_any_neg1 v s (by simpa using h1)] at h
      exact absurd h (by simp)
  have heany2 : ∀ (s : EngineState) (v : ℕ), (erase_handle_any v s).1 = false →
      (erase_handle_any v s).2 = s := by
    intro s v h
    by_cases h1 : s.is_hdl_map v
    · cases hf : find_group v s.handle_group_list with
      | none => rw [erase_handle_any_neg2 v s hf]
      | some g =>
          rw [erase_handle_any_pos v s h1 g hf] at h ⊢
          by_cases h2 : v ∈ s.handle_group_list.getD g []
          · rw [erase_handle_pos g v s h1 h2] at h; exact absurd h (by simp)
          · rw [erase_handle_neg2 g v s h2]
    · rw [erase_handle_any_neg1 v s (by simpa using h1)]
  refine ⟨fun s => rfl, ?_, ?_, ?_, ?_, ?_, ?_, heany, heany2, ?_, ?_, fun s g => rfl⟩
  · intro s g v h
    by_cases h1 : s.is_hdl_map v
    · rw [insert_handle_neg g v s h1] at h; exact absurd h (by simp)
    · exact hins s g v (by simpa using h1)
  · intro s g v h
    by_cases h1 : s.is_hdl_map v
    · rw [insert_handle_neg g v s h1]
    · rw [insert_handle_pos g v s (by simpa using h1)] at h
      exact absurd h (by simp)
  · intro s v h
    by_cases h1 : s.is_roi_map v
    · rw [insert_roi_neg v s h1] at h; exact absurd h (by simp)
    · rw [insert_roi_pos v s (by simpa using h1)]
  · intro s v h
    by_cases h1 : s.is_roi_map v
    · rw [insert_roi_neg v s h1]
    · rw [insert_roi_pos v s (by simpa using h1)] at h
      exact absurd h (by simp)
  · intro s g v h
    by_cases h1 : s.is_hdl_map v
    · by_cases h2 : v ∈ s.handle_group_list.getD g []
      · rw [erase_handle_pos g v s h1 h2]
      · rw [erase_handle_neg2 g v s h2] at h; exact absurd h (by simp)
    · rw [erase_handle_neg1 g v s (by simpa using h1)] at h
      exact absurd h (by simp)
  · intro s g v h
    by_cases h1 : s.is_hdl_map v
    · by_cases h2 : v ∈ s.handle_group_list.getD g []
      · rw [erase_handle_pos g v s h1 h2] at h; exact absurd h (by simp)
      · rw [erase_handle_neg2 g v s h2]
    · rw [erase_handle_neg1 g v s (by simpa using h1)]
  · intro s v h
    by_cases h1 : s.is_roi_map v
    · by_cases h2 : v ∈ (erase_handle_any v s).2.roi
      · rw [erase_roi_pos v s h1 h2]
      · rw [erase_roi_mid v s h1 h2] at h; exact absurd h (by simp)
    · rw [erase_roi_neg v s (by simpa using h1)] at h
      exact absurd h (by simp)
  · intro s v h
    rw [erase_roi_neg v s h]

/-- C8 witness: on a concrete engine, a successful `insert_roi` sets the
flag and `erase_handle_group` sets it as well. -/
theorem mutations_set_validity_flag_witness :
    (insert_roi 1 stateClean).2.need_preprocess = true ∧
    (erase_handle_group 0 stateClean).need_preprocess = true :=
  ⟨mutations_set_validity_flag.2.2.2.1 stateClean 1 (by decide),
   mutations_set_validity_flag.2.2.2.2.2.2.2.2.2.2.2 stateClean 0⟩


theorem maybe_preprocess_is_hdl (cfg : Ctx) (s : EngineState) :
    (maybe_preprocess cfg s).is_hdl_map = s.is_hdl_map := by
  by_cases h : s.need_preprocess <;>
    simp [maybe_preprocess, h, (preprocess_registry cfg s).2.2.1]

/-- C10: `assign` on a vertex that is not a handle only runs the pending
preprocess (when the validity flag is set) and otherwise changes nothing: in
particular with a clear flag it is the identity, so solution, original,
rotation, registry and mesh data are all untouched, and no error is
signalled (the call simply returns). -/
theorem assign_non_handle_is_noop (cfg : Ctx) (s : EngineState) (v : ℕ) (p : V3)
    (h : s.is_hdl_map v = false) :
    assign cfg v p s = maybe_preprocess cfg s ∧
    (s.need_preprocess = false → assign cfg v p s = s) := by
  have h1 : (maybe_preprocess cfg s).is_hdl_map v = false := by
    rw [maybe_preprocess_is_hdl]; exact h
  have hmain : assign cfg v p s = maybe_preprocess cfg s := by
    simp only [assign]
    rw [if_neg (by simp [h1])]
  refine ⟨hmain, fun h2 => ?_⟩
  rw [hmain]
  simp [maybe_preprocess, h2]

/-- Engine on `cfgA` holding one ROI vertex that is not a handle. -/
def stateRoi : EngineState := (insert_roi 0 (construct cfgA posA (fun _ => 1) 5 0)).2

/-- C10 witness: a concrete `assign` on a non-handle ROI vertex. -/
theorem assign_non_handle_is_noop_witness :
    assign cfgA 0 ⟨5, 5, 5⟩ stateRoi = maybe_preprocess cfgA stateRoi :=
  (assign_non_handle_is_noop cfgA stateRoi 0 ⟨5, 5, 5⟩ (by decide)).1

/-- Engine on `cfgA` with one (empty) handle group. -/
def stateG : EngineState := (create_handle_group (construct cfgA posA (fun _ => 1) 5 0)).2

/-- The pair `insert_handle(g, v)` then `erase_handle(g, v)` on `stateG`. -/
def stateGpair : EngineState := (erase_handle 0 0 (insert_handle 0 0 stateG).2).2

/-- C7 counterexample: for a vertex that was not in the ROI,
`insert_handle(g, v); erase_handle(g, v)` does not leave its ROI membership
"the same as before the insert": the vertex enters the ROI as a side effect
of `insert_handle` and the handle erasure does not remove it. -/
theorem insert_erase_handle_roi_changed :
    stateG.is_roi_map 0 = false ∧
    stateGpair.is_hdl_map 0 = false ∧
    stateGpair.is_roi_map 0 = true := by
  decide


theorem insert_handle_fields (g v : ℕ) (s : EngineState) (h1 : s.is_hdl_map v = false) :
    (insert_handle g v s).2.is_hdl_map = upd s.is_hdl_map v true ∧
    (insert_handle g v s).2.is_roi_map v = true ∧
    (insert_handle g v s).2.handle_group_list
      = s.handle_group_list.set g (s.handle_group_list.getD g [] ++ [v]) := by
  by_cases h2 : s.is_roi_map v <;>
    refine ⟨?_, ?_, ?_⟩ <;>
      simp [insert_handle, insert_roi, h1, h2, upd]

theorem erase_handle_fields (g v : ℕ) (s : EngineState) (h1 : s.is_hdl_map v = true)
    (h2 : v ∈ s.handle_group_list.getD g []) :
    (erase_handle g v s).2.is_hdl_map = upd s.is_hdl_map v false ∧
    (erase_handle g v s).2.is_roi_map = s.is_roi_map := by
  rw [erase_handle_pos g v s h1 h2]
  exact ⟨rfl, rfl⟩

/-- C7 amended: if the group reference is valid and `v` is not already a
handle of a different group, then `insert_handle(g, v); erase_handle(g, v)`
leaves `is_handle(v)` false, and afterwards `v` is in the ROI iff it was in
the ROI before or the insertion took place — the ROI-insertion side effect
of `insert_handle` is not undone by the handle erasure, so a vertex that was
outside the ROI before ends up inside it. -/
theorem insert_then_erase_handle_spec (s : EngineState) (g v : ℕ)
    (hg : g < s.handle_group_list.length)
    (h : s.is_hdl_map v = false ∨ v ∈ s.handle_group_list.getD g []) :
    (erase_handle g v (insert_handle g v s).2).2.is_hdl_map v = false ∧
    (erase_handle g v (insert_handle g v s).2).2.is_roi_map v
      = (s.is_roi_map v || !s.is_hdl_map v) := by
  by_cases h1 : s.is_hdl_map v
  · have hmem : v ∈ s.handle_group_list.getD g [] := by
      cases h with
      | inl hfalse => rw [h1] at hfalse; exact absurd hfalse (by simp)
      | inr hmem => exact hmem
    have hins : (insert_handle g v s).2 = s := by
      rw [insert_handle_neg g v s h1]
    rw [hins]
    obtain ⟨e1, e2⟩ := erase_handle_fields g v s h1 hmem
    rw [e1, e2]
    exact ⟨by simp [upd], by simp [h1]⟩
  · have h1' : s.is_hdl_map v = false := by simpa using h1
    obtain ⟨f1, f2, f3⟩ := insert_handle_fields g v s h1'
    have h1m : (insert_handle g v s).2.is_hdl_map v = true := by
      rw [f1]; simp [upd]
    have hmm : v ∈ (insert_handle g v s).2.handle_group_list.getD g [] := by
      rw [f3, getD_set_self _ _ _ _ hg]
      exact List.mem_append_right _ (List.mem_singleton_self v)
    obtain ⟨e1, e2⟩ := erase_handle_fields g v _ h1m hmm
    rw [e1, e2, f2]
    exact ⟨by simp [upd], by simp [h1']⟩

/-- C7 witness: the amended round trip evaluated on the concrete engine. -/
theorem insert_then_erase_handle_spec_witness :
    (erase_handle 0 0 (insert_handle 0 0 stateG).2).2.is_hdl_map 0 = false ∧
    (erase_handle 0 0 (insert_handle 0 0 stateG).2).2.is_roi_map 0
      = (stateG.is_roi_map 0 || !stateG.is_hdl_map 0) :=
  insert_then_erase_handle_spec stateG 0 0 (by decide) (Or.inl (by decide))


/-! C6: the ARAP energy.  The code only guards it with
`CGAL_warning(energy_this >= 0)`: with the pluggable Weight Provider the
energy can actually go negative, and is nonnegative once all edge weights
are nonnegative. -/

theorem le_foldl_of_step {α : Type} (step : ℚ → α → ℚ) (l : List α) :
    ∀ acc : ℚ, (∀ a x, x ∈ l → a ≤ step a x) → acc ≤ l.foldl step acc := by
  induction l with
  | nil => intro acc _; exact le_refl acc
  | cons x xs ih =>
      intro acc h
      exact le_trans (h acc x (List.mem_cons_self x xs))
        (ih (step acc x) (fun a y hy => h a y (List.mem_cons_of_mem x hy)))

theorem sqnorm_nonneg (a : V3) : 0 ≤ sqnorm a :=
  add_nonneg (add_nonneg (mul_self_nonneg a.x) (mul_self_nonneg a.y))
    (mul_self_nonneg a.z)

theorem wgt_nonneg (s : EngineState) (h : ∀ w ∈ s.edge_weight, 0 ≤ w) (e : ℕ) :
    0 ≤ wgt s e := by
  unfold wgt
  rw [List.getD_eq_getElem?_getD]
  cases he : s.edge_weight[e]? with
  | none => simp
  | some w =>
      obtain ⟨hlt, rfl⟩ := List.getElem?_eq_some.1 he
      simpa using h _ (List.getElem_mem hlt)

/-- C6 amended: for any engine state whose edge-weight table is nonnegative
(as it is for nonnegative weight calculators), the ARAP distortion energy of
both variants is nonnegative.  (The claim as stated over all reachable
states fails: the Weight Provider is pluggable and may produce negative
weights.) -/
theorem energy_nonneg (cfg : Ctx) (s : EngineState)
    (h : ∀ w ∈ s.edge_weight, 0 ≤ w) :
    0 ≤ energy_arap cfg s ∧ 0 ≤ energy_spokes_and_rims cfg s := by
  have hterm : ∀ (a : ℚ) (w : ℚ) (q : V3), 0 ≤ w → a ≤ a + w * sqnorm q :=
    fun a w q hw => le_add_of_nonneg_right (mul_nonneg hw (sqnorm_nonneg q))
  constructor
  · refine le_foldl_of_step _ _ 0 (fun a vi _ => ?_)
    refine le_foldl_of_step _ _ a (fun b e _ => ?_)
    exact hterm b _ _ (wgt_nonneg s h e)
  · refine le_foldl_of_step _ _ 0 (fun a vi _ => ?_)
    refine le_foldl_of_step _ _ a (fun b e _ => ?_)
    by_cases hb : cfg.is_border e
    · simp [hb]
    · simp only [hb, if_false, Bool.false_eq_true]
      refine le_foldl_of_step _ _ b (fun c e2 _ => ?_)
      exact hterm c _ _ (wgt_nonneg s h e2)

/-- C6 witness: the amended bound evaluated on a concrete engine whose
uniform weights are 1. -/
theorem energy_nonneg_witness :
    0 ≤ energy_arap cfgA stateClean ∧ 0 ≤ energy_spokes_and_rims cfgA stateClean :=
  energy_nonneg cfgA stateClean (by decide)

/-- The tiny mesh built with a weight calculator that yields -1 on every
edge (the Weight Provider is an external pluggable collaborator). -/
def cfgC : Ctx := cfgA

/-- A reachable, preprocessed engine with negative edge weights: handle
vertex 0, ROI vertex 1, handle group translated by (1,0,0). -/
def cexEnergyState : EngineState :=
  translate cfgC 0 ⟨1, 0, 0⟩
    (insert_roi 1
      (insert_handle 0 0
        (create_handle_group (construct cfgC posA (fun _ => -1) 5 0)).2).2).2

/-- C6 counterexample: a state reachable through the public interface, with
preprocessing done, whose ARAP energy is negative (the edge weights supplied
by the external weight calculator are -1). -/
theorem energy_negative_reachable :
    Reachable cfgC cexEnergyState ∧
    cexEnergyState.need_preprocess = false ∧
    energy cfgC cexEnergyState < 0 := by
  refine ⟨?_, by decide, ?_⟩
  case refine_2 =>
    norm_num [cexEnergyState, cfgC, cfgA, posA, energy, energy_arap, translate,
      maybe_preprocess, preprocess, region_of_solution, build_ros,
      assign_roi_ids, assign_ros_id_to_one_ring, assign_one, in_edges,
      out_edges, edge_source, edge_target, construct, create_handle_group,
      insert_handle, insert_roi, upd, rid, wgt, rotD, M3.id, M3.zero, V3.zero,
      mulVec, dot, vsub, vadd, sqnorm, List.foldl, List.range, List.filter,
      List.set, List.getD, List.replicate, List.take, List.drop]
  exact Reachable.translate _ 0 ⟨1, 0, 0⟩
    (Reachable.insert_roi _ 1
      (Reachable.insert_handle _ 0 0 (by decide)
        (Reachable.create_handle_group _
          (Reachable.construct posA (fun _ => -1) 5 0))))


/-! C9: the two mesh write-back points.  First, pointwise characterizations
of the conditional-update folds. -/

theorem foldl_upd_char_neg {β : Type} (l : List ℕ) (P : ℕ → Bool) (g : ℕ → β) :
    ∀ (m0 : ℕ → β) (v : ℕ),
      (l.foldl (fun m u => if P u then m else upd m u (g u)) m0) v
        = if v ∈ l ∧ P v = false then g v else m0 v := by
  induction l with
  | nil => intro m0 v; simp
  | cons u us ih =>
      intro m0 v
      simp only [List.foldl_cons]
      rw [ih]
      by_cases hin : v ∈ us ∧ P v = false
      · rw [if_pos hin, if_pos ⟨List.mem_cons_of_mem u hin.1, hin.2⟩]
      · rw [if_neg hin]
        by_cases hvu : v = u
        · subst hvu
          by_cases hP : P v
          · rw [if_pos hP, if_neg (by simp [hP])]
          · rw [if_neg hP, upd_self,
              if_pos ⟨List.mem_cons_self v us, by simpa using hP⟩]
        · have hout : ¬ (v ∈ u :: us ∧ P v = false) := by
            intro hc
            rcases List.mem_cons.1 hc.1 with h1 | h1
            · exact hvu h1
            · exact hin ⟨h1, hc.2⟩
          rw [if_neg hout]
          by_cases hP : P u
          · rw [if_pos hP]
          · rw [if_neg hP, upd_other _ _ _ _ hvu]

theorem foldl_upd_char_pos {β : Type} (l : List ℕ) (P : ℕ → Bool) (g : ℕ → β) :
    ∀ (m0 : ℕ → β) (v : ℕ),
      (l.foldl (fun m u => if P u then upd m u (g u) else m) m0) v
        = if v ∈ l ∧ P v = true then g v else m0 v := by
  induction l with
  | nil => intro m0 v; simp
  | cons u us ih =>
      intro m0 v
      simp only [List.foldl_cons]
      rw [ih]
      by_cases hin : v ∈ us ∧ P v = true
      · rw [if_pos hin, if_pos ⟨List.mem_cons_of_mem u hin.1, hin.2⟩]
      · rw [if_neg hin]
        by_cases hvu : v = u
        · subst hvu
          by_cases hP : P v
          · rw [if_pos hP, upd_self, if_pos ⟨List.mem_cons_self v us, hP⟩]
          · rw [if_neg hP, if_neg (by simp [hP])]
        · have hout : ¬ (v ∈ u :: us ∧ P v = true) := by
            intro hc
            rcases List.mem_cons.1 hc.1 with h1 | h1
            · exact hvu h1
            · exact hin ⟨h1, hc.2⟩
          rw [if_neg hout]
          by_cases hP : P u
          · rw [if_pos hP, upd_other _ _ _ _ hvu]
          · rw [if_neg hP]

theorem insert_roi_mesh (v : ℕ) (s : EngineState) : (insert_roi v s).2.mesh = s.mesh := by
  by_cases h : s.is_roi_map v
  · rw [insert_roi_neg v s h]
  · rw [insert_roi_pos v s (by simpa using h)]

theorem insert_handle_mesh (g v : ℕ) (s : EngineState) :
    (insert_handle g v s).2.mesh = s.mesh := by
  by_cases h : s.is_hdl_map v
  · rw [insert_handle_neg g v s h]
  · rw [insert_handle_pos g v s (by simpa using h)]
    show (insert_roi v { s with need_preprocess := true }).2.mesh = s.mesh
    rw [insert_roi_mesh]

theorem erase_handle_mesh (g v : ℕ) (s : EngineState) :
    (erase_handle g v s).2.mesh = s.mesh := by
  by_cases h1 : s.is_hdl_map v
  · by_cases h2 : v ∈ s.handle_group_list.getD g []
    · rw [erase_handle_pos g v s h1 h2]
    · rw [erase_handle_neg2 g v s h2]
  · rw [erase_handle_neg1 g v s (by simpa using h1)]

theorem erase_handle_any_mesh (v : ℕ) (s : EngineState) :
    (erase_handle_any v s).2.mesh = s.mesh := by
  by_cases h1 : s.is_hdl_map v
  · cases hf : find_group v s.handle_group_list with
    | none => rw [erase_handle_any_neg2 v s hf]
    | some g => rw [erase_handle_any_pos v s h1 g hf, erase_handle_mesh]
  · rw [erase_handle_any_neg1 v s (by simpa using h1)]

theorem erase_roi_mesh (v : ℕ) (s : EngineState) : (erase_roi v s).2.mesh = s.mesh := by
  by_cases h : s.is_roi_map v
  · by_cases h2 : v ∈ (erase_handle_any v s).2.roi
    · rw [erase_roi_pos v s h h2]
      show (erase_handle_any v s).2.mesh = s.mesh
      rw [erase_handle_any_mesh]
    · rw [erase_roi_mid v s h h2]
      show (erase_handle_any v s).2.mesh = s.mesh
      rw [erase_handle_any_mesh]
  · rw [erase_roi_neg v s (by simpa using h)]

theorem update_solution_mesh (cfg : Ctx) (s : EngineState) :
    (update_solution cfg s).mesh = s.mesh := by
  unfold update_solution update_solution_spokes_and_rims update_solution_arap
  split <;> rfl

theorem optimal_rotations_svd_mesh (cfg : Ctx) (s : EngineState) :
    (optimal_rotations_svd cfg s).mesh = s.mesh := by
  unfold optimal_rotations_svd optimal_rotations_svd_spokes_and_rims
    optimal_rotations_svd_arap
  split <;> rfl

theorem region_of_solution_mesh (cfg : Ctx) (s : EngineState) (v : ℕ) :
    (region_of_solution cfg s).mesh v
      = if v ∈ s.ros ∧ s.is_roi_map v = false
        then s.original ((s.ros_id_map v).getD 0) else s.mesh v := by
  show (s.ros.foldl
      (fun m u => if s.is_roi_map u then m
                  else upd m u (s.original ((s.ros_id_map u).getD 0))) s.mesh) v = _
  exact foldl_upd_char_neg s.ros s.is_roi_map _ s.mesh v

theorem assign_solution_mesh (s : EngineState) (v : ℕ) :
    (assign_solution s).mesh v
      = if v ∈ s.ros ∧ s.is_roi_map v = true
        then s.solution ((s.ros_id_map v).getD 0) else s.mesh v := by
  show (s.ros.foldl
      (fun m u => if s.is_roi_map u then upd m u (s.solution (rid s u)) else m)
      s.mesh) v = _
  exact foldl_upd_char_pos s.ros s.is_roi_map _ s.mesh v

theorem deform_loop_mesh (cfg : Ctx) (its : ℕ) (tol : ℚ) :
    ∀ (fuel ite : ℕ) (e : ℚ) (s : EngineState),
      (deform_loop cfg its tol fuel ite e s).state.mesh = s.mesh := by
  intro fuel
  induction fuel with
  | zero => intro ite e s; rfl
  | succ n ih =>
      intro ite e s
      have hbody : (optimal_rotations_svd cfg (update_solution cfg s)).mesh = s.mesh := by
        rw [optimal_rotations_svd_mesh, update_solution_mesh]
      simp only [deform_loop]
      split_ifs <;> simp [ih, hbody]


/-- C9: the engine writes the external mesh's stored positions at exactly two
points.  All registry operations, `reset`, and the iteration body (global
step, local step) leave the mesh untouched; `region_of_solution` performs the
ROI-eviction write-back (every old-ROS vertex no longer in ROI receives its
saved `original` snapshot, everything else is unchanged); `preprocess`
mutates the mesh only through that write-back; `translate`, `rotate` and
`assign` mutate it only through their implicit preprocess; and `deform`
additionally performs the final `assign_solution` write-back (every ROS row
currently in ROI receives its `solution` position; non-ROI ROS rows are never
written). -/
theorem mesh_mutation_points (cfg : Ctx) :
    (∀ s : EngineState, (create_handle_group s).2.mesh = s.mesh) ∧
    (∀ (s : EngineState) (g v : ℕ), (insert_handle g v s).2.mesh = s.mesh) ∧
    (∀ (s : EngineState) (v : ℕ), (insert_roi v s).2.mesh = s.mesh) ∧
    (∀ (s : EngineState) (g v : ℕ), (erase_handle g v s).2.mesh = s.mesh) ∧
    (∀ (s : EngineState) (v : ℕ), (erase_handle_any v s).2.mesh = s.mesh) ∧
    (∀ (s : EngineState) (g : ℕ), (erase_handle_group g s).mesh = s.mesh) ∧
    (∀ (s : EngineState) (v : ℕ), (erase_roi v s).2.mesh = s.mesh) ∧
    (∀ s : EngineState, (reset s).mesh = s.mesh) ∧
    (∀ (s : EngineState) (its : ℕ), (set_iterations its s).mesh = s.mesh) ∧
    (∀ (s : EngineState) (tol : ℚ), (set_tolerance tol s).mesh = s.mesh) ∧
    (∀ s : EngineState, (update_solution cfg s).mesh = s.mesh) ∧
    (∀ s : EngineState, (optimal_rotations_svd cfg s).mesh = s.mesh) ∧
    (∀ (s : EngineState) (v : ℕ),
      (region_of_solution cfg s).mesh v
        = if v ∈ s.ros ∧ s.is_roi_map v = false
          then s.original ((s.ros_id_map v).getD 0) else s.mesh v) ∧
    (∀ s : EngineState,
      (preprocess cfg s).2.mesh
        = if s.need_preprocess
          then (region_of_solution cfg { s with need_preprocess := false }).mesh
          else s.mesh) ∧
    (∀ (s : EngineState) (g : ℕ) (t : V3),
      (translate cfg g t s).mesh = (maybe_preprocess cfg s).mesh) ∧
    (∀ (s : EngineState) (g : ℕ) (c : V3) (qact : V3 → V3) (t : V3),
      (rotate cfg g c qact t s).mesh = (maybe_preprocess cfg s).mesh) ∧
    (∀ (s : EngineState) (v : ℕ) (p : V3),
      (assign cfg v p s).mesh = (maybe_preprocess cfg s).mesh) ∧
    (∀ (s : EngineState) (v : ℕ),
      (assign_solution s).mesh v
        = if v ∈ s.ros ∧ s.is_roi_map v = true
          then s.solution ((s.ros_id_map v).getD 0) else s.mesh v) ∧
    (∀ (its : ℕ) (tol : ℚ) (fuel ite : ℕ) (e : ℚ) (s : EngineState),
      (deform_loop cfg its tol fuel ite e s).state.mesh = s.mesh) ∧
    (∀ (s : EngineState) (its : ℕ) (tol : ℚ) (v : ℕ),
      (deform cfg its tol s).mesh v
        = if v ∈ (deform_loop cfg its tol its 0 0 (maybe_preprocess cfg s)).state.ros
              ∧ (deform_loop cfg its tol its 0 0 (maybe_preprocess cfg s)).state.is_roi_map v = true
          then (deform_loop cfg its tol its 0 0 (maybe_preprocess cfg s)).state.solution
            (((deform_loop cfg its tol its 0 0 (maybe_preprocess cfg s)).state.ros_id_map v).getD 0)
          else (maybe_preprocess cfg s).mesh v) := by
  refine ⟨fun s => rfl,
    fun s g v => insert_handle_mesh g v s,
    fun s v => insert_roi_mesh v s,
    fun s g v => erase_handle_mesh g v s,
    fun s v => erase_handle_any_mesh v s,
    fun s g => rfl,
    fun s v => erase_roi_mesh v s,
    fun s => rfl, fun s its => rfl, fun s tol => rfl,
    fun s => update_solution_mesh cfg s,
    fun s => optimal_rotations_svd_mesh cfg s,
    fun s v => region_of_solution_mesh cfg s v,
    ?_,
    fun s g t => rfl,
    fun s g c qact t => rfl,
    ?_,
    fun s v => assign_solution_mesh s v,
    fun its tol fuel ite e s => deform_loop_mesh cfg its tol fuel ite e s,
    ?_⟩
  · intro s
    by_cases h : s.need_preprocess <;> simp [preprocess, h]
  · intro s v p
    simp only [assign]
    split <;> rfl
  · intro s its tol v
    show (assign_solution (deform_loop cfg its tol its 0 0 (maybe_preprocess cfg s)).state).mesh v = _
    rw [assign_solution_mesh, deform_loop_mesh]


/-! C2: the containment invariant over reachable states. -/

theorem getD_default {α : Type} (l : List α) (n : ℕ) (d : α) (h : l.length ≤ n) :
    l.getD n d = d := by
  simp [List.getD_eq_getElem?_getD, List.getElem?_eq_none h]

theorem getD_append_left {α : Type} (l1 l2 : List α) (i : ℕ) (d : α)
    (h : i < l1.length) : (l1 ++ l2).getD i d = l1.getD i d := by
  simp [List.getD_eq_getElem?_getD, List.getElem?_append_left h]

theorem getD_eraseIdx_lt {α : Type} (l : List α) (g i : ℕ) (d : α) (h : i < g) :
    (l.eraseIdx g).getD i d = l.getD i d := by
  induction l generalizing g i with
  | nil => simp [List.eraseIdx]
  | cons a as ih =>
      cases g with
      | zero => omega
      | succ g2 =>
          cases i with
          | zero => simp [List.eraseIdx]
          | succ i2 =>
              simpa [List.eraseIdx, List.getD_cons_succ] using ih g2 i2 (by omega)

theorem getD_eraseIdx_ge {α : Type} (l : List α) (g i : ℕ) (d : α) (h : g ≤ i) :
    (l.eraseIdx g).getD i d = l.getD (i + 1) d := by
  induction l generalizing g i with
  | nil => simp [List.eraseIdx]
  | cons a as ih =>
      cases g with
      | zero => simp [List.eraseIdx, List.getD_cons_succ]
      | succ g2 =>
          cases i with
          | zero => omega
          | succ i2 =>
              simpa [List.eraseIdx, List.getD_cons_succ] using ih g2 i2 (by omega)

theorem find_group_spec (v : ℕ) :
    ∀ l : List (List ℕ), ∀ g : ℕ, find_group v l = some g →
      g < l.length ∧ v ∈ l.getD g [] := by
  intro l
  induction l with
  | nil => intro g h; simp [find_group] at h
  | cons G rest ih =>
      intro g h
      by_cases hm : v ∈ G
      · simp only [find_group, if_pos hm] at h
        cases h
        exact ⟨by simp, hm⟩
      · simp only [find_group, if_neg hm] at h
        cases hrec : find_group v rest with
        | none => rw [hrec] at h; simp at h
        | some g2 =>
            rw [hrec] at h
            obtain ⟨h1, h2⟩ := ih g2 hrec
            have hg : g = g2 + 1 := by simpa using h.symm
            subst hg
            exact ⟨by simpa using h1, by simpa [List.getD_cons_succ] using h2⟩

theorem find_group_none (v : ℕ) :
    ∀ l : List (List ℕ), find_group v l = none → ∀ i : ℕ, v ∉ l.getD i [] := by
  intro l
  induction l with
  | nil => intro _ i; simp [List.getD]
  | cons G rest ih =>
      intro h i
      by_cases hm : v ∈ G
      · simp [find_group, hm] at h
      · simp only [find_group, if_neg hm] at h
        cases hrec : find_group v rest with
        | some g2 => rw [hrec] at h; simp at h
        | none =>
            cases i with
            | zero => simpa using hm
            | succ i2 => simpa [List.getD_cons_succ] using ih hrec i2

/-- The registry consistency invariant: handles are ROI members, the ROI flag
table mirrors the duplicate-free `roi` sequence, every handle lives in some
group, and — once preprocessing is up to date — the ROI is contained in the
ROS sequence. -/
def Consistent (s : EngineState) : Prop :=
  (∀ v, s.is_hdl_map v = true → s.is_roi_map v = true) ∧
  (∀ v, s.is_roi_map v = true ↔ v ∈ s.roi) ∧
  s.roi.Nodup ∧
  (∀ v, s.is_hdl_map v = true → ∃ i, v ∈ s.handle_group_list.getD i []) ∧
  (s.need_preprocess = false → ∀ v ∈ s.roi, v ∈ s.ros)

theorem consistent_construct (cfg : Ctx) (pos : ℕ → V3) (wc : ℕ → ℚ)
    (its : ℕ) (tol : ℚ) : Consistent (construct cfg pos wc its tol) := by
  refine ⟨fun v h => by simpa using h, fun v => by simp [construct], ?_, ?_, ?_⟩
  · simp [construct]
  · intro v h; simp [construct] at h
  · intro h; simp [construct] at h

theorem consistent_create_handle_group (s : EngineState) (h : Consistent s) :
    Consistent (create_handle_group s).2 := by
  obtain ⟨h1, h2, h3, h4, h5⟩ := h
  refine ⟨h1, h2, h3, ?_, h5⟩
  intro v hv
  obtain ⟨i, hi⟩ := h4 v hv
  refine ⟨i, ?_⟩
  show v ∈ (s.handle_group_list ++ [[]]).getD i []
  have hlen : i < s.handle_group_list.length := by
    by_contra hc
    rw [getD_default _ _ _ (by omega)] at hi
    exact absurd hi (by simp)
  rw [getD_append_left _ _ _ _ hlen]
  exact hi

theorem insert_roi_true (v : ℕ) (s : EngineState) :
    (insert_roi v s).2.is_roi_map v = true := by
  by_cases h : s.is_roi_map v
  · rw [insert_roi_neg v s h]; exact h
  · rw [insert_roi_pos v s (by simpa using h)]
    simp [upd]

theorem consistent_insert_roi (v : ℕ) (s : EngineState) (h : Consistent s) :
    Consistent (insert_roi v s).2 := by
  obtain ⟨h1, h2, h3, h4, h5⟩ := h
  by_cases hr : s.is_roi_map v
  · rw [insert_roi_neg v s hr]; exact ⟨h1, h2, h3, h4, h5⟩
  · rw [insert_roi_pos v s (by simpa using hr)]
    refine ⟨?_, ?_, ?_, h4, ?_⟩
    · intro w hw
      show upd s.is_roi_map v true w = true
      by_cases hwv : w = v
      · subst hwv; simp [upd]
      · rw [upd_other _ _ _ _ hwv]; exact h1 w hw
    · intro w
      show upd s.is_roi_map v true w = true ↔ w ∈ s.roi ++ [v]
      by_cases hwv : w = v
      · subst hwv
        simp [upd]
      · rw [upd_other _ _ _ _ hwv]
        rw [h2 w]
        simp [List.mem_append, hwv]
    · show (s.roi ++ [v]).Nodup
      refine List.Nodup.append h3 (List.nodup_singleton v) ?_
      simp only [List.disjoint_singleton]
      intro hc
      exact absurd ((h2 v).2 hc) (by simpa using hr)
    · intro hflag
      simp at hflag


theorem insert_roi_groups (v : ℕ) (s : EngineState) :
    (insert_roi v s).2.handle_group_list = s.handle_group_list := by
  by_cases h : s.is_roi_map v
  · rw [insert_roi_neg v s h]
  · rw [insert_roi_pos v s (by simpa using h)]

theorem consistent_set_handle (g v : ℕ) (t : EngineState)
    (ht : Consistent t) (hroi : t.is_roi_map v = true)
    (hg : g < t.handle_group_list.length) :
    Consistent { t with is_hdl_map := upd t.is_hdl_map v true
                        handle_group_list := t.handle_group_list.set g
                          ((t.handle_group_list.getD g []) ++ [v]) } := by
  obtain ⟨h1, h2, h3, h4, h5⟩ := ht
  refine ⟨?_, h2, h3, ?_, h5⟩
  · intro w hw
    have hw2 : upd t.is_hdl_map v true w = true := hw
    show t.is_roi_map w = true
    by_cases hwv : w = v
    · subst hwv; exact hroi
    · rw [upd_other _ _ _ _ hwv] at hw2
      exact h1 w hw2
  · intro w hw
    have hw2 : upd t.is_hdl_map v true w = true := hw
    by_cases hwv : w = v
    · subst hwv
      refine ⟨g, ?_⟩
      show w ∈ (t.handle_group_list.set g ((t.handle_group_list.getD g []) ++ [w])).getD g []
      rw [getD_set_self _ _ _ _ hg]
      exact List.mem_append_right _ (List.mem_singleton_self w)
    · rw [upd_other _ _ _ _ hwv] at hw2
      obtain ⟨i, hi⟩ := h4 w hw2
      by_cases hig : i = g
      · subst hig
        refine ⟨i, ?_⟩
        show w ∈ (t.handle_group_list.set i ((t.handle_group_list.getD i []) ++ [v])).getD i []
        rw [getD_set_self _ _ _ _ hg]
        exact List.mem_append_left _ hi
      · refine ⟨i, ?_⟩
        show w ∈ (t.handle_group_list.set g ((t.handle_group_list.getD g []) ++ [v])).getD i []
        rw [getD_set_other _ _ _ _ _ hig]
        exact hi

theorem consistent_insert_handle (g v : ℕ) (s : EngineState)
    (hg : g < s.handle_group_list.length) (h : Consistent s) :
    Consistent (insert_handle g v s).2 := by
  by_cases hh : s.is_hdl_map v
  · have heq : (insert_handle g v s).2 = s := by rw [insert_handle_neg g v s hh]
    rw [heq]; exact h
  · have hh2 : s.is_hdl_map v = false := by simpa using hh
    have hs1 : Consistent ({ s with need_preprocess := true } : EngineState) := by
      obtain ⟨h1, h2, h3, h4, h5⟩ := h
      exact ⟨h1, h2, h3, h4, fun hc => by simp at hc⟩
    have hs2 := consistent_insert_roi v _ hs1
    have hgr : g < (insert_roi v ({ s with need_preprocess := true } : EngineState)).2.handle_group_list.length := by
      rw [insert_roi_groups]
      exact hg
    have htrue := insert_roi_true v ({ s with need_preprocess := true } : EngineState)
    rw [insert_handle_pos g v s hh2]
    exact consistent_set_handle g v _ hs2 htrue hgr

theorem erase_handle_roi (g v : ℕ) (s : EngineState) :
    (erase_handle g v s).2.roi = s.roi ∧
    (erase_handle g v s).2.is_roi_map = s.is_roi_map ∧
    (erase_handle g v s).2.ros = s.ros := by
  by_cases h1 : s.is_hdl_map v
  · by_cases h2 : v ∈ s.handle_group_list.getD g []
    · rw [erase_handle_pos g v s h1 h2]; exact ⟨rfl, rfl, rfl⟩
    · rw [erase_handle_neg2 g v s h2]; exact ⟨rfl, rfl, rfl⟩
  · rw [erase_handle_neg1 g v s (by simpa using h1)]; exact ⟨rfl, rfl, rfl⟩

theorem consistent_erase_handle (g v : ℕ) (s : EngineState) (h : Consistent s) :
    Consistent (erase_handle g v s).2 := by
  by_cases h1 : s.is_hdl_map v
  · by_cases h2 : v ∈ s.handle_group_list.getD g []
    · have hg : g < s.handle_group_list.length := by
        by_contra hc
        rw [getD_default _ _ _ (by omega)] at h2
        exact absurd h2 (by simp)
      rw [erase_handle_pos g v s h1 h2]
      obtain ⟨c1, c2, c3, c4, c5⟩ := h
      refine ⟨?_, c2, c3, ?_, ?_⟩
      · intro w hw
        have hw2 : upd s.is_hdl_map v false w = true := hw
        by_cases hwv : w = v
        · subst hwv; rw [upd_self] at hw2; exact absurd hw2 (by simp)
        · rw [upd_other _ _ _ _ hwv] at hw2
          exact c1 w hw2
      · intro w hw
        have hw2 : upd s.is_hdl_map v false w = true := hw
        by_cases hwv : w = v
        · subst hwv; rw [upd_self] at hw2; exact absurd hw2 (by simp)
        · rw [upd_other _ _ _ _ hwv] at hw2
          obtain ⟨i, hi⟩ := c4 w hw2
          by_cases hig : i = g
          · subst hig
            refine ⟨i, ?_⟩
            show w ∈ (s.handle_group_list.set i ((s.handle_group_list.getD i []).erase v)).getD i []
            rw [getD_set_self _ _ _ _ hg]
            exact (List.mem_erase_of_ne hwv).mpr hi
          · refine ⟨i, ?_⟩
            show w ∈ (s.handle_group_list.set g ((s.handle_group_list.getD g []).erase v)).getD i []
            rw [getD_set_other _ _ _ _ _ hig]
            exact hi
      · intro hc
        exact absurd hc (by simp)
    · rw [erase_handle_neg2 g v s h2]; exact h
  · rw [erase_handle_neg1 g v s (by simpa using h1)]; exact h

theorem erase_handle_any_roi (v : ℕ) (s : EngineState) :
    (erase_handle_any v s).2.roi = s.roi ∧
    (erase_handle_any v s).2.is_roi_map = s.is_roi_map ∧
    (erase_handle_any v s).2.ros = s.ros := by
  by_cases h1 : s.is_hdl_map v
  · cases hf : find_group v s.handle_group_list with
    | none => rw [erase_handle_any_neg2 v s hf]; exact ⟨rfl, rfl, rfl⟩
    | some g => rw [erase_handle_any_pos v s h1 g hf]; exact erase_handle_roi g v s
  · rw [erase_handle_any_neg1 v s (by simpa using h1)]; exact ⟨rfl, rfl, rfl⟩

theorem consistent_erase_handle_any (v : ℕ) (s : EngineState) (h : Consistent s) :
    Consistent (erase_handle_any v s).2 := by
  by_cases h1 : s.is_hdl_map v
  · cases hf : find_group v s.handle_group_list with
    | none => rw [erase_handle_any_neg2 v s hf]; exact h
    | some g =>
        rw [erase_handle_any_pos v s h1 g hf]
        exact consistent_erase_handle g v s h
  · rw [erase_handle_any_neg1 v s (by simpa using h1)]; exact h

theorem erase_handle_any_clears (v : ℕ) (s : EngineState) (h : Consistent s) :
    (erase_handle_any v s).2.is_hdl_map v = false := by
  by_cases h1 : s.is_hdl_map v
  · obtain ⟨i, hi⟩ := h.2.2.2.1 v h1
    cases hf : find_group v s.handle_group_list with
    | none => exact absurd hi (find_group_none v _ hf i)
    | some g =>
        rw [erase_handle_any_pos v s h1 g hf]
        have hspec := find_group_spec v _ g hf
        rw [erase_handle_pos g v s h1 hspec.2]
        show upd s.is_hdl_map v false v = false
        rw [upd_self]
  · rw [erase_handle_any_neg1 v s (by simpa using h1)]
    simpa using h1

theorem foldl_upd_false_char (l : List ℕ) :
    ∀ (m0 : ℕ → Bool) (w : ℕ),
      (l.foldl (fun m u => upd m u false) m0) w = if w ∈ l then false else m0 w := by
  induction l with
  | nil => intro m0 w; simp
  | cons u us ih =>
      intro m0 w
      simp only [List.foldl_cons]
      rw [ih]
      by_cases hin : w ∈ us
      · rw [if_pos hin, if_pos (List.mem_cons_of_mem u hin)]
      · rw [if_neg hin]
        by_cases hwu : w = u
        · subst hwu
          rw [upd_self, if_pos (List.mem_cons_self w us)]
        · rw [upd_other _ _ _ _ hwu, if_neg (by
            intro hc
            rcases List.mem_cons.1 hc with h1 | h1
            · exact hwu h1
            · exact hin h1)]

theorem consistent_erase_handle_group (g : ℕ) (s : EngineState) (h : Consistent s) :
    Consistent (erase_handle_group g s) := by
  obtain ⟨c1, c2, c3, c4, c5⟩ := h
  refine ⟨?_, c2, c3, ?_, ?_⟩
  · intro w hw
    have hw2 : ((s.handle_group_list.getD g []).foldl (fun m u => upd m u false)
        s.is_hdl_map) w = true := hw
    rw [foldl_upd_false_char] at hw2
    by_cases hin : w ∈ s.handle_group_list.getD g []
    · rw [if_pos hin] at hw2; exact absurd hw2 (by simp)
    · rw [if_neg hin] at hw2; exact c1 w hw2
  · intro w hw
    have hw2 : ((s.handle_group_list.getD g []).foldl (fun m u => upd m u false)
        s.is_hdl_map) w = true := hw
    rw [foldl_upd_false_char] at hw2
    by_cases hin : w ∈ s.handle_group_list.getD g []
    · rw [if_pos hin] at hw2; exact absurd hw2 (by simp)
    · rw [if_neg hin] at hw2
      obtain ⟨i, hi⟩ := c4 w hw2
      rcases Nat.lt_trichotomy i g with hig | hig | hig
      · refine ⟨i, ?_⟩
        show w ∈ (s.handle_group_list.eraseIdx g).getD i []
        rw [getD_eraseIdx_lt _ _ _ _ hig]
        exact hi
      · subst hig; exact absurd hi hin
      · refine ⟨i - 1, ?_⟩
        show w ∈ (s.handle_group_list.eraseIdx g).getD (i - 1) []
        rw [getD_eraseIdx_ge _ _ _ _ (by omega)]
        have hii : i - 1 + 1 = i := by omega
        rw [hii]
        exact hi
  · intro hc
    simp [erase_handle_group] at hc

theorem consistent_erase_roi (v : ℕ) (s : EngineState) (h : Consistent s) :
    Consistent (erase_roi v s).2 := by
  by_cases hr : s.is_roi_map v
  · obtain ⟨r1, r2, r3⟩ := erase_handle_any_roi v s
    have hv1 : v ∈ (erase_handle_any v s).2.roi := by
      rw [r1]; exact (h.2.1 v).1 hr
    rw [erase_roi_pos v s hr hv1]
    have hclr := erase_handle_any_clears v s h
    obtain ⟨c1, c2, c3, c4, c5⟩ := consistent_erase_handle_any v s h
    refine ⟨?_, ?_, c3.erase v, c4, ?_⟩
    · intro w hw
      have hw2 : (erase_handle_any v s).2.is_hdl_map w = true := hw
      by_cases hwv : w = v
      · subst hwv; rw [hclr] at hw2; exact absurd hw2 (by simp)
      · show upd (erase_handle_any v s).2.is_roi_map v false w = true
        rw [upd_other _ _ _ _ hwv]
        exact c1 w hw2
    · intro w
      show upd (erase_handle_any v s).2.is_roi_map v false w = true
        ↔ w ∈ (erase_handle_any v s).2.roi.erase v
      by_cases hwv : w = v
      · subst hwv
        rw [upd_self]
        simp [c3.mem_erase_iff]
      · rw [upd_other _ _ _ _ hwv, c2 w, c3.mem_erase_iff]
        simp [hwv]
    · intro hc
      exact absurd hc (by simp)
  · rw [erase_roi_neg v s (by simpa using hr)]; exact h


theorem foldl_pushed_extends {α : Type} (f : RosAssign → α → RosAssign)
    (hf : ∀ st a, ∃ Δ, (f st a).pushed = st.pushed ++ Δ) (l : List α) :
    ∀ st, ∃ Δ, (l.foldl f st).pushed = st.pushed ++ Δ := by
  induction l with
  | nil => intro st; exact ⟨[], by simp⟩
  | cons a as ih =>
      intro st
      obtain ⟨d1, hd1⟩ := hf st a
      obtain ⟨d2, hd2⟩ := ih (f st a)
      refine ⟨d1 ++ d2, ?_⟩
      simp only [List.foldl_cons]
      rw [hd2, hd1, List.append_assoc]

theorem assign_one_pushed (st : RosAssign) (u : ℕ) :
    ∃ Δ, (assign_one st u).pushed = st.pushed ++ Δ := by
  cases hm : st.idmap u with
  | some k => exact ⟨[], by simp [assign_one, hm]⟩
  | none => exact ⟨[u], by simp [assign_one, hm]⟩

theorem one_ring_pushed (cfg : Ctx) (v : ℕ) (st : RosAssign) :
    ∃ Δ, (assign_ros_id_to_one_ring cfg v st).pushed = st.pushed ++ Δ :=
  foldl_pushed_extends _ (fun st e => assign_one_pushed st (edge_source cfg e)) _ st

theorem build_ros_ros_extends (cfg : Ctx) (roi : List ℕ) :
    ∃ Δ, (build_ros cfg roi).2.1 = roi ++ Δ := by
  obtain ⟨Δ, hΔ⟩ := foldl_pushed_extends
    (fun st v => assign_ros_id_to_one_ring cfg v st)
    (fun st v => one_ring_pushed cfg v st) roi
    { idmap := assign_roi_ids (fun _ => none) 0 roi
      next := roi.length
      pushed := roi }
  exact ⟨Δ, hΔ⟩

theorem region_of_solution_ros (cfg : Ctx) (s : EngineState) :
    (region_of_solution cfg s).ros = (build_ros cfg s.roi).2.1 := rfl

theorem consistent_of_same_fields (s t : EngineState)
    (hroi : t.roi = s.roi) (hros : t.ros = s.ros)
    (hri : t.is_roi_map = s.is_roi_map) (hhd : t.is_hdl_map = s.is_hdl_map)
    (hgl : t.handle_group_list = s.handle_group_list)
    (hnp : t.need_preprocess = s.need_preprocess)
    (h : Consistent s) : Consistent t := by
  unfold Consistent at h ⊢
  rw [hroi, hros, hri, hhd, hgl, hnp]
  exact h

theorem consistent_preprocess (cfg : Ctx) (s : EngineState) (h : Consistent s) :
    Consistent (preprocess cfg s).2 := by
  by_cases hf : s.need_preprocess
  · have heq : (preprocess cfg s).2
        = region_of_solution cfg { s with need_preprocess := false } := by
      simp [preprocess, hf]
    rw [heq]
    obtain ⟨c1, c2, c3, c4, c5⟩ := h
    obtain ⟨r1, r2, r3, r4, r5, _⟩ :=
      region_of_solution_registry cfg { s with need_preprocess := false }
    refine ⟨?_, ?_, ?_, ?_, ?_⟩
    · intro v hv
      rw [r3] at hv
      rw [r2]
      exact c1 v hv
    · intro v
      rw [r2, r1]
      exact c2 v
    · rw [r1]; exact c3
    · intro v hv
      rw [r3] at hv
      rw [r4]
      exact c4 v hv
    · intro _ v hv
      rw [r1] at hv
      rw [region_of_solution_ros]
      obtain ⟨Δ, hΔ⟩ := build_ros_ros_extends cfg
        ({ s with need_preprocess := false } : EngineState).roi
      rw [hΔ]
      exact List.mem_append_left _ hv
  · have heq : (preprocess cfg s).2 = s := by simp [preprocess, hf]
    rw [heq]; exact h

theorem consistent_maybe_preprocess (cfg : Ctx) (s : EngineState) (h : Consistent s) :
    Consistent (maybe_preprocess cfg s) := by
  by_cases hf : s.need_preprocess
  · have heq : maybe_preprocess cfg s = (preprocess cfg s).2 := by
      simp [maybe_preprocess, hf]
    rw [heq]
    exact consistent_preprocess cfg s h
  · have heq : maybe_preprocess cfg s = s := by simp [maybe_preprocess, hf]
    rw [heq]; exact h

theorem update_solution_registry (cfg : Ctx) (s : EngineState) :
    (update_solution cfg s).roi = s.roi ∧ (update_solution cfg s).ros = s.ros ∧
    (update_solution cfg s).is_roi_map = s.is_roi_map ∧
    (update_solution cfg s).is_hdl_map = s.is_hdl_map ∧
    (update_solution cfg s).handle_group_list = s.handle_group_list ∧
    (update_solution cfg s).need_preprocess = s.need_preprocess := by
  unfold update_solution update_solution_spokes_and_rims update_solution_arap
  split <;> exact ⟨rfl, rfl, rfl, rfl, rfl, rfl⟩

theorem optimal_rotations_svd_registry (cfg : Ctx) (s : EngineState) :
    (optimal_rotations_svd cfg s).roi = s.roi ∧ (optimal_rotations_svd cfg s).ros = s.ros ∧
    (optimal_rotations_svd cfg s).is_roi_map = s.is_roi_map ∧
    (optimal_rotations_svd cfg s).is_hdl_map = s.is_hdl_map ∧
    (optimal_rotations_svd cfg s).handle_group_list = s.handle_group_list ∧
    (optimal_rotations_svd cfg s).need_preprocess = s.need_preprocess := by
  unfold optimal_rotations_svd optimal_rotations_svd_spokes_and_rims
    optimal_rotations_svd_arap
  split <;> exact ⟨rfl, rfl, rfl, rfl, rfl, rfl⟩

theorem deform_loop_registry (cfg : Ctx) (its : ℕ) (tol : ℚ) :
    ∀ (fuel ite : ℕ) (e : ℚ) (s : EngineState),
      (deform_loop cfg its tol fuel ite e s).state.roi = s.roi ∧
      (deform_loop cfg its tol fuel ite e s).state.ros = s.ros ∧
      (deform_loop cfg its tol fuel ite e s).state.is_roi_map = s.is_roi_map ∧
      (deform_loop cfg its tol fuel ite e s).state.is_hdl_map = s.is_hdl_map ∧
      (deform_loop cfg its tol fuel ite e s).state.handle_group_list = s.handle_group_list ∧
      (deform_loop cfg its tol fuel ite e s).state.need_preprocess = s.need_preprocess := by
  intro fuel
  induction fuel with
  | zero => intro ite e s; exact ⟨rfl, rfl, rfl, rfl, rfl, rfl⟩
  | succ n ih =>
      intro ite e s
      have h1 := update_solution_registry cfg s
      have h2 := optimal_rotations_svd_registry cfg (update_solution cfg s)
      simp only [deform_loop]
      split_ifs <;>
        simp [ih, h1.1, h1.2.1, h1.2.2.1, h1.2.2.2.1, h1.2.2.2.2.1, h1.2.2.2.2.2,
          h2.1, h2.2.1, h2.2.2.1, h2.2.2.2.1, h2.2.2.2.2.1, h2.2.2.2.2.2]

theorem consistent_translate (cfg : Ctx) (g : ℕ) (t : V3) (s : EngineState)
    (h : Consistent s) : Consistent (translate cfg g t s) :=
  consistent_of_same_fields (maybe_preprocess cfg s) _ rfl rfl rfl rfl rfl rfl
    (consistent_maybe_preprocess cfg s h)

theorem consistent_rotate (cfg : Ctx) (g : ℕ) (c : V3) (qact : V3 → V3) (t : V3)
    (s : EngineState) (h : Consistent s) : Consistent (rotate cfg g c qact t s) :=
  consistent_of_same_fields (maybe_preprocess cfg s) _ rfl rfl rfl rfl rfl rfl
    (consistent_maybe_preprocess cfg s h)

theorem consistent_assign (cfg : Ctx) (v : ℕ) (p : V3) (s : EngineState)
    (h : Consistent s) : Consistent (assign cfg v p s) := by
  have h1 := consistent_maybe_preprocess cfg s h
  simp only [assign]
  split
  · exact consistent_of_same_fields (maybe_preprocess cfg s) _ rfl rfl rfl rfl rfl rfl h1
  · exact h1

theorem consistent_deform (cfg : Ctx) (its : ℕ) (tol : ℚ) (s : EngineState)
    (h : Consistent s) : Consistent (deform cfg its tol s) := by
  have h1 := consistent_maybe_preprocess cfg s h
  obtain ⟨l1, l2, l3, l4, l5, l6⟩ :=
    deform_loop_registry cfg its tol its 0 0 (maybe_preprocess cfg s)
  have h2 : Consistent (deform_loop cfg its tol its 0 0 (maybe_preprocess cfg s)).state :=
    consistent_of_same_fields _ _ l1 l2 l3 l4 l5 l6 h1
  exact consistent_of_same_fields _ _ rfl rfl rfl rfl rfl rfl h2

theorem consistent_reset (s : EngineState) : Consistent (reset s) := by
  refine ⟨fun v hv => by simpa using hv, fun v => by simp [reset], by simp [reset],
    fun v hv => by simp [reset] at hv, fun hc => by simp [reset] at hc⟩

theorem reachable_consistent (cfg : Ctx) (s : EngineState) (h : Reachable cfg s) :
    Consistent s := by
  induction h with
  | construct pos wc its tol => exact consistent_construct cfg pos wc its tol
  | create_handle_group s _ ih => exact consistent_create_handle_group s ih
  | insert_handle s g v hg _ ih => exact consistent_insert_handle g v s hg ih
  | erase_handle s g v _ ih => exact consistent_erase_handle g v s ih
  | erase_handle_any s v _ ih => exact consistent_erase_handle_any v s ih
  | erase_handle_group s g _ ih => exact consistent_erase_handle_group g s ih
  | insert_roi s v _ ih => exact consistent_insert_roi v s ih
  | erase_roi s v _ ih => exact consistent_erase_roi v s ih
  | preprocess s _ ih => exact consistent_preprocess cfg s ih
  | translate s g t _ ih => exact consistent_translate cfg g t s ih
  | rotate s g c qact t _ ih => exact consistent_rotate cfg g c qact t s ih
  | assign s v p _ ih => exact consistent_assign cfg v p s ih
  | deform s its tol _ ih => exact consistent_deform cfg its tol s ih
  | set_iterations s its _ ih =>
      exact consistent_of_same_fields s _ rfl rfl rfl rfl rfl rfl ih
  | set_tolerance s tol _ ih =>
      exact consistent_of_same_fields s _ rfl rfl rfl rfl rfl rfl ih
  | reset s _ _ => exact consistent_reset s

/-- C2: in every state reachable through the public interface, every handle
vertex is in the ROI, and after a successful `preprocess()` every ROI vertex
appears in the `ros` sequence (handle-set ⊆ ROI-set ⊆ ROS-set). -/
theorem handle_roi_ros_containment (cfg : Ctx) (s : EngineState)
    (h : Reachable cfg s) :
    (∀ v, s.is_hdl_map v = true → s.is_roi_map v = true) ∧
    ((preprocess cfg s).1 = true →
      ∀ v, (preprocess cfg s).2.is_roi_map v = true →
        v ∈ (preprocess cfg s).2.ros) := by
  have hc := reachable_consistent cfg s h
  refine ⟨hc.1, fun _ v hv => ?_⟩
  by_cases hf : s.need_preprocess
  · have heq : (preprocess cfg s).2
        = region_of_solution cfg { s with need_preprocess := false } := by
      simp [preprocess, hf]
    rw [heq] at hv ⊢
    obtain ⟨r1, r2, r3, _⟩ :=
      region_of_solution_registry cfg { s with need_preprocess := false }
    rw [r2] at hv
    rw [region_of_solution_ros]
    obtain ⟨Δ, hΔ⟩ := build_ros_ros_extends cfg
      ({ s with need_preprocess := false } : EngineState).roi
    rw [hΔ]
    exact List.mem_append_left _ ((hc.2.1 v).1 hv)
  · have heq : (preprocess cfg s).2 = s := by simp [preprocess, hf]
    rw [heq] at hv ⊢
    exact hc.2.2.2.2 (by simpa using hf) v ((hc.2.1 v).1 hv)

/-- Reachable engine used as the C2 evaluation input: one handle group with
handle vertex 0. -/
def stateH : EngineState := (insert_handle 0 0 stateG).2

/-- C2 witness: on the concrete reachable engine, the handle vertex 0 is in
the ROI, and after a successful preprocess it is in the ROS sequence. -/
theorem handle_roi_ros_containment_witness :
    stateH.is_roi_map 0 = true ∧ 0 ∈ (preprocess cfgA stateH).2.ros := by
  have hreach : Reachable cfgA stateH :=
    Reachable.insert_handle _ 0 0 (by decide)
      (Reachable.create_handle_group _
        (Reachable.construct posA (fun _ => 1) 5 0))
  exact ⟨(handle_roi_ros_containment cfgA stateH hreach).1 0 (by decide),
    (handle_roi_ros_containment cfgA stateH hreach).2 (by decide) 0 (by decide)⟩


/-! C4: the ros-id assignment is a bijection onto the dense index range.
The invariant: the id table is exactly the indexing function of the list of
vertices in id-assignment order. -/

def IdInv (m : ℕ → Option ℕ) (A : List ℕ) : Prop :=
  ∀ v k, m v = some k ↔ A[k]? = some v

/-- `next` counts the assigned ids and `idmap` indexes the assignment-order
list `A`. -/
def RInv (st : RosAssign) (A : List ℕ) : Prop :=
  st.next = A.length ∧ IdInv st.idmap A

theorem idinv_extend (m : ℕ → Option ℕ) (A : List ℕ) (u : ℕ)
    (h : IdInv m A) (hu : m u = none) :
    IdInv (upd m u (some A.length)) (A ++ [u]) := by
  intro v k
  by_cases hvu : v = u
  · subst hvu
    rw [upd_self]
    constructor
    · intro hk
      have hk2 : k = A.length := by
        cases hk
        rfl
      subst hk2
      rw [List.getElem?_append_right (le_refl A.length)]
      simp
    · intro hk
      rcases Nat.lt_trichotomy k A.length with h1 | h1 | h1
      · rw [List.getElem?_append_left h1] at hk
        have := (h v k).2 hk
        rw [hu] at this
        exact absurd this (by simp)
      · rw [h1]
      · rw [List.getElem?_append_right (by omega)] at hk
        have hge : 1 ≤ k - A.length := by omega
        rw [List.getElem?_eq_none (by simpa using hge)] at hk
        exact absurd hk (by simp)
  · rw [upd_other _ _ _ _ hvu, h v k]
    constructor
    · intro hk
      obtain ⟨hlt, _⟩ := List.getElem?_eq_some.1 hk
      rw [List.getElem?_append_left hlt]
      exact hk
    · intro hk
      rcases Nat.lt_or_ge k A.length with h1 | h1
      · rwa [List.getElem?_append_left h1] at hk
      · rw [List.getElem?_append_right h1] at hk
        rcases Nat.lt_or_ge (k - A.length) 1 with h2 | h2
        · have h0 : k - A.length = 0 := by omega
          rw [h0] at hk
          have : v = u := by
            cases hk
            rfl
          exact absurd this.symm (Ne.symm hvu)
        · rw [List.getElem?_eq_none (by simpa using h2)] at hk
          exact absurd hk (by simp)

theorem assign_one_rinv (st : RosAssign) (A : List ℕ) (u : ℕ) (h : RInv st A) :
    ∃ Δ, (assign_one st u).pushed = st.pushed ++ Δ ∧
      RInv (assign_one st u) (A ++ Δ) := by
  cases hm : st.idmap u with
  | some k =>
      refine ⟨[], by simp [assign_one, hm], ?_⟩
      rw [List.append_nil]
      have heq : assign_one st u = st := by simp [assign_one, hm]
      rw [heq]
      exact h
  | none =>
      refine ⟨[u], by simp [assign_one, hm], ?_, ?_⟩
      · show (assign_one st u).next = (A ++ [u]).length
        have heq : (assign_one st u).next = st.next + 1 := by simp [assign_one, hm]
        rw [heq, h.1]
        simp
      · show IdInv (assign_one st u).idmap (A ++ [u])
        have heq : (assign_one st u).idmap = upd st.idmap u (some st.next) := by
          simp [assign_one, hm]
        rw [heq, h.1]
        exact idinv_extend st.idmap A u h.2 hm

theorem foldl_assign_rinv {α : Type} (f : α → ℕ) (xs : List α) :
    ∀ (st : RosAssign) (A : List ℕ), RInv st A →
      ∃ Δ, (xs.foldl (fun st a => assign_one st (f a)) st).pushed = st.pushed ++ Δ ∧
        RInv (xs.foldl (fun st a => assign_one st (f a)) st) (A ++ Δ) := by
  induction xs with
  | nil => intro st A h; exact ⟨[], by simp, by simpa⟩
  | cons a as ih =>
      intro st A h
      obtain ⟨d1, hp1, hr1⟩ := assign_one_rinv st A (f a) h
      obtain ⟨d2, hp2, hr2⟩ := ih (assign_one st (f a)) (A ++ d1) hr1
      refine ⟨d1 ++ d2, ?_, ?_⟩
      · simp only [List.foldl_cons]
        rw [hp2, hp1, List.append_assoc]
      · simp only [List.foldl_cons]
        rw [← List.append_assoc]
        exact hr2

theorem one_ring_rinv (cfg : Ctx) (v : ℕ) (st : RosAssign) (A : List ℕ)
    (h : RInv st A) :
    ∃ Δ, (assign_ros_id_to_one_ring cfg v st).pushed = st.pushed ++ Δ ∧
      RInv (assign_ros_id_to_one_ring cfg v st) (A ++ Δ) :=
  foldl_assign_rinv (edge_source cfg) (in_edges cfg v) st A h

theorem foldl_ring_rinv (cfg : Ctx) (vs : List ℕ) :
    ∀ (st : RosAssign) (A : List ℕ), RInv st A →
      ∃ Δ, (vs.foldl (fun st v => assign_ros_id_to_one_ring cfg v st) st).pushed
          = st.pushed ++ Δ ∧
        RInv (vs.foldl (fun st v => assign_ros_id_to_one_ring cfg v st) st) (A ++ Δ) := by
  induction vs with
  | nil => intro st A h; exact ⟨[], by simp, by simpa⟩
  | cons v vs2 ih =>
      intro st A h
      obtain ⟨d1, hp1, hr1⟩ := one_ring_rinv cfg v st A h
      obtain ⟨d2, hp2, hr2⟩ := ih (assign_ros_id_to_one_ring cfg v st) (A ++ d1) hr1
      refine ⟨d1 ++ d2, ?_, ?_⟩
      · simp only [List.foldl_cons]
        rw [hp2, hp1, List.append_assoc]
      · simp only [List.foldl_cons]
        rw [← List.append_assoc]
        exact hr2

theorem assign_roi_ids_idinv_aux :
    ∀ (roi : List ℕ) (m : ℕ → Option ℕ) (A : List ℕ),
      IdInv m A → (∀ v ∈ roi, m v = none) → roi.Nodup →
      IdInv (assign_roi_ids m A.length roi) (A ++ roi) := by
  intro roi
  induction roi with
  | nil => intro m A h _ _; simpa [assign_roi_ids]
  | cons v rest ih =>
      intro m A h hnone hnd
      have hm : m v = none := hnone v (List.mem_cons_self v rest)
      have hext := idinv_extend m A v h hm
      have hnone2 : ∀ w ∈ rest, upd m v (some A.length) w = none := by
        intro w hw
        have hwv : w ≠ v := by
          intro hc
          subst hc
          exact (List.nodup_cons.1 hnd).1 hw
        rw [upd_other _ _ _ _ hwv]
        exact hnone w (List.mem_cons_of_mem v hw)
      have hrec := ih (upd m v (some A.length)) (A ++ [v]) hext hnone2
        (List.nodup_cons.1 hnd).2
      show IdInv (assign_roi_ids (upd m v (some A.length)) (A.length + 1) rest)
        (A ++ v :: rest)
      have hlen : (A ++ [v]).length = A.length + 1 := by simp
      have hlist : A ++ v :: rest = (A ++ [v]) ++ rest := by simp
      rw [hlist, ← hlen]
      exact hrec

theorem idinv_empty : IdInv (fun _ => none) [] := by
  intro v k
  simp

/-- The assignment state after the roi-id loop of `build_ros`. -/
def ros_st0 (roi : List ℕ) : RosAssign :=
  { idmap := assign_roi_ids (fun _ => none) 0 roi
    next := roi.length
    pushed := roi }

/-- The assignment state after the boundary-of-roi expansion of `build_ros`. -/
def ros_st1 (cfg : Ctx) (roi : List ℕ) : RosAssign :=
  roi.foldl (fun st v => assign_ros_id_to_one_ring cfg v st) (ros_st0 roi)

/-- The assignment state after the outside-ros expansion of `build_ros`. -/
def ros_st2 (cfg : Ctx) (roi : List ℕ) : RosAssign :=
  ((ros_st1 cfg roi).pushed.drop roi.length).foldl
    (fun st v => assign_ros_id_to_one_ring cfg v st)
    { ros_st1 cfg roi with pushed := [] }

theorem build_ros_eq (cfg : Ctx) (roi : List ℕ) :
    build_ros cfg roi
      = (ros_st2 cfg roi, (ros_st1 cfg roi).pushed, (ros_st2 cfg roi).pushed) := rfl

theorem rinv_st0 (roi : List ℕ) (hnd : roi.Nodup) : RInv (ros_st0 roi) roi := by
  refine ⟨rfl, ?_⟩
  have h := assign_roi_ids_idinv_aux roi (fun _ => none) [] idinv_empty
    (fun v _ => rfl) hnd
  simpa using h

theorem rinv_st1 (cfg : Ctx) (roi : List ℕ) (hnd : roi.Nodup) :
    RInv (ros_st1 cfg roi) (ros_st1 cfg roi).pushed ∧
    ∃ Δ, (ros_st1 cfg roi).pushed = roi ++ Δ := by
  obtain ⟨Δ, hp, hr⟩ := foldl_ring_rinv cfg roi (ros_st0 roi) roi (rinv_st0 roi hnd)
  have hp2 : (ros_st1 cfg roi).pushed = roi ++ Δ := hp
  exact ⟨by rw [hp2]; exact hr, ⟨Δ, hp2⟩⟩

theorem rinv_st2 (cfg : Ctx) (roi : List ℕ) (hnd : roi.Nodup) :
    RInv (ros_st2 cfg roi) ((ros_st1 cfg roi).pushed ++ (ros_st2 cfg roi).pushed) := by
  have h1 := (rinv_st1 cfg roi hnd).1
  have h1b : RInv ({ ros_st1 cfg roi with pushed := [] } : RosAssign)
      (ros_st1 cfg roi).pushed := h1
  obtain ⟨Δ, hp, hr⟩ := foldl_ring_rinv cfg ((ros_st1 cfg roi).pushed.drop roi.length)
    { ros_st1 cfg roi with pushed := [] } (ros_st1 cfg roi).pushed h1b
  have hp2 : (ros_st2 cfg roi).pushed = Δ := by
    show (((ros_st1 cfg roi).pushed.drop roi.length).foldl
      (fun st v => assign_ros_id_to_one_ring cfg v st)
      { ros_st1 cfg roi with pushed := [] }).pushed = Δ
    rw [hp]
    simp
  rw [hp2]
  exact hr

/-- C4: after `region_of_solution`, the ros-id table restricted to the `ros`
sequence plus the outside-ros ring is exactly the indexing bijection onto
`0 .. |ROS| + |outside| - 1` — no gaps, no collisions — the ROI occupies ids
`0 .. |ROI| - 1` as the prefix of `ros`, and every other vertex keeps the
not-assigned mark. -/
theorem region_of_solution_id_bijection (cfg : Ctx) (s : EngineState)
    (hnd : s.roi.Nodup) :
    (∀ v k, (region_of_solution cfg s).ros_id_map v = some k ↔
        ((region_of_solution cfg s).ros ++ (build_ros cfg s.roi).2.2)[k]? = some v) ∧
    (region_of_solution cfg s).ros.take s.roi.length = s.roi ∧
    (build_ros cfg s.roi).1.next
      = ((region_of_solution cfg s).ros ++ (build_ros cfg s.roi).2.2).length ∧
    (∀ v, v ∉ (region_of_solution cfg s).ros ++ (build_ros cfg s.roi).2.2 →
      (region_of_solution cfg s).ros_id_map v = none) := by
  have h2 := rinv_st2 cfg s.roi hnd
  have hify : ∀ v k, (region_of_solution cfg s).ros_id_map v = some k ↔
      ((region_of_solution cfg s).ros ++ (build_ros cfg s.roi).2.2)[k]? = some v :=
    fun v k => h2.2 v k
  refine ⟨hify, ?_, h2.1, ?_⟩
  · obtain ⟨Δ, hp⟩ := (rinv_st1 cfg s.roi hnd).2
    show (ros_st1 cfg s.roi).pushed.take s.roi.length = s.roi
    rw [hp]
    exact List.take_left s.roi Δ
  · intro v hv
    cases hm : (region_of_solution cfg s).ros_id_map v with
    | none => rfl
    | some k =>
        have hk := (hify v k).1 hm
        obtain ⟨hlt, hg⟩ := List.getElem?_eq_some.1 hk
        exact absurd (hg ▸ List.getElem_mem hlt) hv

/-- C4 witness: on the concrete engine with `roi = [0]`, vertex 1 is the
boundary ring and receives ros-id 1. -/
theorem region_of_solution_id_bijection_witness :
    (region_of_solution cfgA stateRoi).ros_id_map 1 = some 1 :=
  ((region_of_solution_id_bijection cfgA stateRoi (by decide)).1 1 1).2 (by decide)


/-! C3: termination behaviour of the `deform` iteration loop. -/

/-- The energy the loop computes at iteration `t`: the energy of the state
after `t + 1` runs of the body (global step then local step) from `s0`. -/
def traj_energy (cfg : Ctx) (s0 : EngineState) (t : ℕ) : ℚ :=
  energy cfg ((fun s => optimal_rotations_svd cfg (update_solution cfg s))^[t + 1] s0)

/-- The early-stop test the code performs at iteration index `t`: the
comparison only happens for `t ≠ 0` and `t + 1 <` the iteration bound, and
fires when the relative energy change drops below the tolerance. -/
def stop_pred (cfg : Ctx) (s0 : EngineState) (its : ℕ) (tol : ℚ) (t : ℕ) : Bool :=
  decide (t ≠ 0) && decide (t + 1 < its) &&
    decide (|(traj_energy cfg s0 (t - 1) - traj_energy cfg s0 t)
        / traj_energy cfg s0 t| < tol)

/-- The first iteration index at which the loop would stop early. -/
def first_stop (cfg : Ctx) (s0 : EngineState) (its : ℕ) (tol : ℚ) : Option ℕ :=
  (List.range its).find? (stop_pred cfg s0 its tol)

theorem deform_loop_no_tol (cfg : Ctx) (its : ℕ) (tol : ℚ) (htol : ¬ 0 < tol) :
    ∀ (fuel ite : ℕ) (e : ℚ) (s : EngineState),
      deform_loop cfg its tol fuel ite e s =
        ⟨(fun s => optimal_rotations_svd cfg (update_solution cfg s))^[fuel] s,
          fuel, 0, []⟩ := by
  intro fuel
  induction fuel with
  | zero => intro ite e s; rfl
  | succ n ih =>
      intro ite e s
      simp only [deform_loop]
      rw [if_neg (fun hc => htol hc.1), ih,
        Function.iterate_succ_apply]

theorem deform_loop_runs_le (cfg : Ctx) (its : ℕ) (tol : ℚ) :
    ∀ (fuel ite : ℕ) (e : ℚ) (s : EngineState),
      (deform_loop cfg its tol fuel ite e s).body_runs ≤ fuel := by
  intro fuel
  induction fuel with
  | zero => intro ite e s; exact Nat.le_refl 0
  | succ n ih =>
      intro ite e s
      simp only [deform_loop]
      split_ifs with h1 h2 h3
      · exact Nat.le_add_left 1 n
      · have := ih (ite + 1) (energy cfg (optimal_rotations_svd cfg (update_solution cfg s)))
          (optimal_rotations_svd cfg (update_solution cfg s))
        show (deform_loop cfg its tol n (ite + 1) _ _).body_runs + 1 ≤ n + 1
        omega
      · have := ih (ite + 1) (energy cfg (optimal_rotations_svd cfg (update_solution cfg s)))
          (optimal_rotations_svd cfg (update_solution cfg s))
        show (deform_loop cfg its tol n (ite + 1) _ _).body_runs + 1 ≤ n + 1
        omega
      · have := ih (ite + 1) e (optimal_rotations_svd cfg (update_solution cfg s))
        show (deform_loop cfg its tol n (ite + 1) _ _).body_runs + 1 ≤ n + 1
        omega

theorem deform_loop_pos_tol (cfg : Ctx) (its : ℕ) (tol : ℚ) (s0 : EngineState)
    (htol : 0 < tol) :
    ∀ (fuel ite : ℕ) (e : ℚ) (s : EngineState),
      fuel + ite = its →
      s = (fun s => optimal_rotations_svd cfg (update_solution cfg s))^[ite] s0 →
      (ite ≠ 0 → e = traj_energy cfg s0 (ite - 1)) →
      (∀ t ∈ (deform_loop cfg its tol fuel ite e s).comps,
        t ≠ 0 ∧ t + 1 < its ∧ ite ≤ t) ∧
      (deform_loop cfg its tol fuel ite e s).body_runs
        = ((List.range' ite fuel).find? (stop_pred cfg s0 its tol)).elim fuel
            (fun t => t + 1 - ite) := by
  intro fuel
  induction fuel with
  | zero =>
      intro ite e s _ _ _
      exact ⟨fun t ht => absurd ht (by simp [deform_loop]), rfl⟩
  | succ n ih =>
      intro ite e s hfuel hs he
      have hs1 : optimal_rotations_svd cfg (update_solution cfg s)
          = (fun s => optimal_rotations_svd cfg (update_solution cfg s))^[ite + 1] s0 := by
        rw [Function.iterate_succ_apply', ← hs]
      have he_new : energy cfg (optimal_rotations_svd cfg (update_solution cfg s))
          = traj_energy cfg s0 ite := by
        rw [hs1]; rfl
      by_cases hlt : ite + 1 < its
      · have hcond : 0 < tol ∧ ite + 1 < its := ⟨htol, hlt⟩
        by_cases hita : ite ≠ 0
        · have he2 : e = traj_energy cfg s0 (ite - 1) := he hita
          by_cases hbrk : |(e - energy cfg (optimal_rotations_svd cfg (update_solution cfg s)))
              / energy cfg (optimal_rotations_svd cfg (update_solution cfg s))| < tol
          · have heq : deform_loop cfg its tol (n + 1) ite e s
                = ⟨optimal_rotations_svd cfg (update_solution cfg s), 1, 1, [ite]⟩ := by
              simp only [deform_loop]
              rw [if_pos hcond, if_pos hita, if_pos hbrk]
            rw [heq]
            have hptrue : stop_pred cfg s0 its tol ite = true := by
              simp only [stop_pred, Bool.and_eq_true, decide_eq_true_eq]
              exact ⟨⟨hita, hlt⟩, by rw [← he2, ← he_new]; exact hbrk⟩
            constructor
            · intro t ht
              have ht2 : t = ite := by simpa using ht
              subst ht2
              exact ⟨hita, hlt, Nat.le_refl t⟩
            · show 1 = ((List.range' ite (n + 1)).find? (stop_pred cfg s0 its tol)).elim
                (n + 1) (fun t => t + 1 - ite)
              rw [List.range'_succ ite n 1, List.find?_cons_of_pos _ hptrue]
              simp only [Option.elim]
              omega
          · have hpfalse : stop_pred cfg s0 its tol ite = false := by
              refine Bool.eq_false_iff.2 (fun hc => ?_)
              simp only [stop_pred, Bool.and_eq_true, decide_eq_true_eq] at hc
              exact hbrk (by rw [he2, he_new]; exact hc.2)
            have heq : deform_loop cfg its tol (n + 1) ite e s
                = ⟨(deform_loop cfg its tol n (ite + 1)
                      (energy cfg (optimal_rotations_svd cfg (update_solution cfg s)))
                      (optimal_rotations_svd cfg (update_solution cfg s))).state,
                   (deform_loop cfg its tol n (ite + 1)
                      (energy cfg (optimal_rotations_svd cfg (update_solution cfg s)))
                      (optimal_rotations_svd cfg (update_solution cfg s))).body_runs + 1,
                   (deform_loop cfg its tol n (ite + 1)
                      (energy cfg (optimal_rotations_svd cfg (update_solution cfg s)))
                      (optimal_rotations_svd cfg (update_solution cfg s))).energy_evals + 1,
                   ite :: (deform_loop cfg its tol n (ite + 1)
                      (energy cfg (optimal_rotations_svd cfg (update_solution cfg s)))
                      (optimal_rotations_svd cfg (update_solution cfg s))).comps⟩ := by
              simp only [deform_loop]
              rw [if_pos hcond, if_pos hita, if_neg hbrk]
            rw [heq]
            obtain ⟨ihc, ihr⟩ := ih (ite + 1)
              (energy cfg (optimal_rotations_svd cfg (update_solution cfg s)))
              (optimal_rotations_svd cfg (update_solution cfg s))
              (by omega) hs1 (fun _ => by rw [he_new]; simp)
            constructor
            · intro t ht
              rcases List.mem_cons.1 ht with ht2 | ht2
              · subst ht2; exact ⟨hita, hlt, Nat.le_refl t⟩
              · obtain ⟨a1, a2, a3⟩ := ihc t ht2
                exact ⟨a1, a2, by omega⟩
            · show _ + 1 = ((List.range' ite (n + 1)).find? (stop_pred cfg s0 its tol)).elim
                (n + 1) (fun t => t + 1 - ite)
              rw [List.range'_succ ite n 1, List.find?_cons_of_neg _ (by simp [hpfalse])]
              cases hfind : (List.range' (ite + 1) n).find? (stop_pred cfg s0 its tol) with
              | none =>
                  rw [hfind] at ihr
                  simp only [Option.elim] at ihr ⊢
                  omega
              | some t0 =>
                  rw [hfind] at ihr
                  have hmem := List.mem_of_find?_eq_some hfind
                  obtain ⟨i, hi, rfl⟩ := List.mem_range'.1 hmem
                  simp only [Option.elim] at ihr ⊢
                  omega
        · have hita2 : ite = 0 := by simpa using hita
          have hpfalse : stop_pred cfg s0 its tol ite = false := by
            simp [stop_pred, hita2]
          have heq : deform_loop cfg its tol (n + 1) ite e s
              = ⟨(deform_loop cfg its tol n (ite + 1)
                    (energy cfg (optimal_rotations_svd cfg (update_solution cfg s)))
                    (optimal_rotations_svd cfg (update_solution cfg s))).state,
                 (deform_loop cfg its tol n (ite + 1)
                    (energy cfg (optimal_rotations_svd cfg (update_solution cfg s)))
                    (optimal_rotations_svd cfg (update_solution cfg s))).body_runs + 1,
                 (deform_loop cfg its tol n (ite + 1)
                    (energy cfg (optimal_rotations_svd cfg (update_solution cfg s)))
                    (optimal_rotations_svd cfg (update_solution cfg s))).energy_evals + 1,
                 (deform_loop cfg its tol n (ite + 1)
                    (energy cfg (optimal_rotations_svd cfg (update_solution cfg s)))
                    (optimal_rotations_svd cfg (update_solution cfg s))).comps⟩ := by
            simp only [deform_loop]
            rw [if_pos hcond, if_neg hita]
          rw [heq]
          obtain ⟨ihc, ihr⟩ := ih (ite + 1)
            (energy cfg (optimal_rotations_svd cfg (update_solution cfg s)))
            (optimal_rotations_svd cfg (update_solution cfg s))
            (by omega) hs1 (fun _ => by rw [he_new]; simp)
          constructor
          · intro t ht
            obtain ⟨a1, a2, a3⟩ := ihc t ht
            exact ⟨a1, a2, by omega⟩
          · show _ + 1 = ((List.range' ite (n + 1)).find? (stop_pred cfg s0 its tol)).elim
              (n + 1) (fun t => t + 1 - ite)
            rw [List.range'_succ ite n 1, List.find?_cons_of_neg _ (by simp [hpfalse])]
            cases hfind : (List.range' (ite + 1) n).find? (stop_pred cfg s0 its tol) with
            | none =>
                rw [hfind] at ihr
                simp only [Option.elim] at ihr ⊢
                omega
            | some t0 =>
                rw [hfind] at ihr
                have hmem := List.mem_of_find?_eq_some hfind
                obtain ⟨i, hi, rfl⟩ := List.mem_range'.1 hmem
                simp only [Option.elim] at ihr ⊢
                omega
      · have hn0 : n = 0 := by omega
        subst hn0
        have heq : deform_loop cfg its tol 1 ite e s
            = ⟨optimal_rotations_svd cfg (update_solution cfg s), 1, 0, []⟩ := by
          simp only [deform_loop]
          rw [if_neg (fun hc => hlt hc.2)]
        rw [heq]
        have hpfalse : stop_pred cfg s0 its tol ite = false := by
          refine Bool.eq_false_iff.2 (fun hc => ?_)
          simp only [stop_pred, Bool.and_eq_true, decide_eq_true_eq] at hc
          exact hlt hc.1.2
        refine ⟨fun t ht => absurd ht (by simp), ?_⟩
        show 1 = ((List.range' ite 1).find? (stop_pred cfg s0 its tol)).elim 1
          (fun t => t + 1 - ite)
        rw [show List.range' ite 1 = [ite] from rfl,
          List.find?_cons_of_neg _ (by simp [hpfalse])]
        rfl

/-- C3: the `deform(iterations, tolerance)` loop runs the body at most
`iterations` times; with tolerance zero it runs exactly `iterations` times
and never evaluates the energy; with a positive tolerance the
energy-difference comparison is never performed at the first iteration nor
at the last scheduled iteration, and the loop stops early exactly after the
first iteration index at which the relative energy change
`|E(t-1) - E(t)| / E(t)` falls below the tolerance (otherwise it runs all
`iterations`). -/
theorem deform_termination (cfg : Ctx) (s0 : EngineState) (its : ℕ) (tol : ℚ) :
    (tol = 0 → (deform_loop cfg its tol its 0 0 s0).body_runs = its ∧
      (deform_loop cfg its tol its 0 0 s0).energy_evals = 0) ∧
    (deform_loop cfg its tol its 0 0 s0).body_runs ≤ its ∧
    (0 < tol →
      (∀ t ∈ (deform_loop cfg its tol its 0 0 s0).comps, t ≠ 0 ∧ t + 1 < its) ∧
      (deform_loop cfg its tol its 0 0 s0).body_runs
        = (first_stop cfg s0 its tol).elim its (fun t => t + 1)) := by
  refine ⟨?_, deform_loop_runs_le cfg its tol its 0 0 s0, ?_⟩
  · intro h0
    rw [deform_loop_no_tol cfg its tol (by rw [h0]; exact lt_irrefl 0) its 0 0 s0]
    exact ⟨rfl, rfl⟩
  · intro htol
    obtain ⟨hc, hr⟩ := deform_loop_pos_tol cfg its tol s0 htol its 0 0 s0
      (by omega) rfl (fun hc => absurd rfl hc)
    refine ⟨fun t ht => ⟨(hc t ht).1, (hc t ht).2.1⟩, ?_⟩
    rw [hr]
    unfold first_stop
    rw [List.range_eq_range' its]
    cases hfind : (List.range' 0 its).find? (stop_pred cfg s0 its tol) with
    | none => rfl
    | some t0 => simp [Option.elim]

/-- C3 witness: a concrete loop run with tolerance zero on the tiny engine
runs its three iterations without evaluating the energy. -/
theorem deform_termination_witness :
    (deform_loop cfgA 3 0 3 0 0 stateClean).body_runs = 3 ∧
    (deform_loop cfgA 3 0 3 0 0 stateClean).energy_evals = 0 :=
  (deform_termination cfgA stateClean 3 0).1 rfl

end DeformMesh
